import Mathlib

/-!
# Verification of the open-queries report backend

Shallow embedding of the chat-report backend (`api/backend.js` and its two
sibling variants) and proofs of the specified properties.

Conventions of the embedding:
* JS strings are modelled as Lean `String` / `List Char`; the regex character
  classes `\s`, `\w`, `\d`, `\p{L}\p{N}` are modelled over their ASCII range
  (the inputs the report processes are ASCII chat exports).
* JS `Date` values are modelled as their epoch-millisecond value (`Int`);
  `NaN` dates are modelled as `Option.none`.
* JS `Map`s are modelled as association lists in insertion order.
* `Array.prototype.sort(cmp)` (stable for a total preorder comparator per
  ES2019) is modelled by `List.insertionSort`, which is stable.
-/

namespace AzaQueries

/-- ASCII range of the JS `\s` character class. -/
def jsIsSpace (c : Char) : Bool :=
  c = ' ' || c = '\t' || c = '\n' || c = '\r' || c = '\x0b' || c = '\x0c'

/-- ASCII range of the JS `\w` character class (used by `\b`). -/
def isWordChar (c : Char) : Bool := c.isAlpha || c.isDigit || c = '_'

/-- ASCII range of the `\p{L}\p{N}` classes used by `normName`. -/
def isAlphaNumChar (c : Char) : Bool := c.isAlpha || c.isDigit

/-- `needle` occurs as a contiguous substring of `hay`
(JS `String.prototype.includes`). -/
def containsSub : List Char → List Char → Bool
  | [], needle => needle.isEmpty
  | c :: t, needle => needle.isPrefixOf (c :: t) || containsSub t needle

/-- One step of collapsing whitespace runs: `prevSpace` records whether the
previous character was whitespace (JS `replace(/\s+/g, ' ')`). -/
def collapseWsAux : List Char → Bool → List Char
  | [], _ => []
  | c :: rest, prevSpace =>
    if jsIsSpace c then
      if prevSpace then collapseWsAux rest true else ' ' :: collapseWsAux rest true
    else c :: collapseWsAux rest false

def collapseWs (l : List Char) : List Char := collapseWsAux l false

/-- JS `String.prototype.trim` on the modelled whitespace class. -/
def trimChars (l : List Char) : List Char :=
  ((l.dropWhile jsIsSpace).reverse.dropWhile jsIsSpace).reverse

/-- `normName` from `api/backend.js`: lower-case, collapse whitespace,
strip non-alphanumerics, trim. -/
def normName (s : String) : String :=
  String.mk (trimChars ((collapseWs (s.data.map Char.toLower)).filter
    (fun c => isAlphaNumChar c || jsIsSpace c)))

/-- JS `split(sep)` for a single-character separator. -/
def splitOnChar (sep : Char) : List Char → List (List Char)
  | [] => [[]]
  | c :: t =>
    if c = sep then [] :: splitOnChar sep t
    else
      match splitOnChar sep t with
      | [] => [[c]]
      | h :: r => (c :: h) :: r

/-- The whitespace-separated tokens of a normalized name
(JS `m.split(' ').filter(Boolean)`). -/
def nameTokens (m : List Char) : List (List Char) :=
  (splitOnChar ' ' m).filter (fun t => !t.isEmpty)

/-- `Math.ceil(n * 0.6)` for natural `n`.  For every token count that can
arise, the double-precision product `n * 0.6` rounds so that its ceiling
equals the exact `⌈3n/5⌉`, which is `(3n+4)/5` in natural division. -/
def ceil60 (n : Nat) : Nat := (3 * n + 4) / 5

/-- `senderMatchesMerch` from `api/backend.js` (identical in both variants):
fuzzy match between a sender display name and the mapped merchandiser name. -/
def senderMatchesMerch (sender merchName : String) : Bool :=
  let s := (normName sender).data
  let m := (normName merchName).data
  if s.isEmpty || m.isEmpty then false
  else if containsSub s m || containsSub m s then true
  else
    let toks := nameTokens m
    let hit := (toks.filter (fun t => containsSub s t)).length
    decide (hit ≥ max 1 (ceil60 toks.length))

/-- Modelled from the spec's words for the fuzzy-match rule, exactly as the
claim states it (no emptiness guard): "match if either normalized string
contains the other, or if at least 60% (rounded up, minimum 1) of the
merchandiser name's whitespace-separated tokens appear as substrings of the
normalized sender". -/
def senderMatchSpecLiteral (sender merchName : String) : Bool :=
  let s := (normName sender).data
  let m := (normName merchName).data
  containsSub s m || containsSub m s ||
    (let toks := nameTokens m
     let hit := (toks.filter (fun t => containsSub s t)).length
     decide (hit ≥ max 1 (ceil60 toks.length)))

/-- A parsed chat message: epoch-millisecond timestamp, sender, body.
(The `raw` line kept by `parseChat` is never read downstream and is not
modelled.) -/
structure Msg where
  ts : Int
  sender : String
  text : String
deriving DecidableEq, Repr

/-- `isLikelyCsMessage`: the fixed cue-substring heuristic plus the
trailing-question-mark test `/\?\s*$/`. -/
def csCues : List String :=
  ["?", "any update", "please update", "pls update", "need", "possible", "price",
   "lead time", "can we", "please confirm", "pls confirm", "update?", "any updates",
   "status", "dispatch", "deliver", "photo", "video", "images", "material", "size",
   "timeline"]

/-- `/\?\s*$/.test t`: after discarding trailing whitespace the text ends
with a question mark. -/
def endsInQuestion (t : List Char) : Bool :=
  match (t.reverse.dropWhile jsIsSpace) with
  | [] => false
  | c :: _ => c = '?'

def isLikelyCsMessage (text : String) : Bool :=
  let t := text.data.map Char.toLower
  csCues.any (fun c => containsSub t c.data) || endsInQuestion t

/-! ### Date arithmetic (the `Date` model)

`parseIstDate` builds `new Date("YYYY-MM-DDTHH:MM:00.000+05:30")`; we model
the resulting epoch milliseconds with the standard Gregorian
days-from-civil algorithm. -/

def isLeapYear (y : Int) : Bool := y % 4 = 0 && (y % 100 ≠ 0 || y % 400 = 0)

def daysInMonth (y m : Int) : Int :=
  if m = 2 then (if isLeapYear y then 29 else 28)
  else if m = 4 || m = 6 || m = 9 || m = 11 then 30
  else 31

/-- Days since 1970-01-01 of a Gregorian civil date (Hinnant's algorithm;
division is C-style truncated division on non-negative operands). -/
def daysFromCivil (y m d : Int) : Int :=
  let y' := if m ≤ 2 then y - 1 else y
  let era := (if 0 ≤ y' then y' else y' - 399) / 400
  let yoe := y' - era * 400
  let mp := (m + 9) % 12
  let doy := (153 * mp + 2) / 5 + d - 1
  let doe := yoe * 365 + yoe / 4 - yoe / 100 + doy
  era * 146097 + doe - 719468

/-- Inverse of `daysFromCivil` (Hinnant's `civil_from_days`). -/
def civilFromDays (z : Int) : Int × Int × Int :=
  let z' := z + 719468
  let era := (if 0 ≤ z' then z' else z' - 146096) / 146097
  let doe := z' - era * 146097
  let yoe := (doe - doe / 1460 + doe / 36524 - doe / 146096) / 365
  let y := yoe + era * 400
  let doy := doe - (365 * yoe + yoe / 4 - yoe / 100)
  let mp := (5 * doy + 2) / 153
  let d := doy - (153 * mp + 2) / 5 + 1
  let m := mp + (if mp < 10 then 3 else -9)
  (y + (if m ≤ 2 then 1 else 0), m, d)

/-- Epoch milliseconds of the wall-clock instant `y-m-d h:min` at the fixed
+05:30 offset (IST is 19 800 000 ms ahead of UTC). -/
def istMillis (y m d hh mm : Int) : Int :=
  (daysFromCivil y m d) * 86400000 + hh * 3600000 + mm * 60000 - 19800000

def pad2 (n : Int) : String :=
  if n < 10 then "0" ++ toString n else toString n

/-- `fmtIst`: render an epoch-millisecond instant as
`YYYY-MM-DD HH:MM IST` in the fixed +05:30 zone. -/
def fmtIst (ms : Int) : String :=
  let t := ms + 19800000
  let days := t.fdiv 86400000
  let rem := t.emod 86400000
  let c := civilFromDays days
  toString c.1 ++ "-" ++ pad2 c.2.1 ++ "-" ++ pad2 c.2.2 ++ " " ++
    pad2 (rem / 3600000) ++ ":" ++ pad2 ((rem / 60000) % 60) ++ " IST"

/-- `diffToHHMM`: an age in milliseconds rendered as zero-padded `HH:MM`. -/
def diffToHHMM (ms : Int) : String :=
  let totalMin := max 0 (ms.fdiv 60000)
  pad2 (totalMin / 60) ++ ":" ++ pad2 (totalMin % 60)

/-! ### PID extraction

`extractPids` runs `/\b(?:pid\s*[:\-]?\s*)?(\d{6})\b/gi` over the body with
a repeated `exec` loop and collects the distinct captures in first-seen
order.  We model the regex engine's deterministic behaviour on this pattern
positionally over the character list. -/

def charAt (s : List Char) (i : Nat) : Option Char := s.get? i

def wordAt (s : List Char) (i : Nat) : Bool :=
  match charAt s i with
  | some c => isWordChar c
  | none => false

/-- `\b` holds between positions `i-1` and `i`. -/
def boundaryAt (s : List Char) (i : Nat) : Bool :=
  (if i = 0 then false else wordAt s (i - 1)) != wordAt s i

/-- `\d{6}` matches at position `i`. -/
def sixDigitsAt (s : List Char) (i : Nat) : Bool :=
  let w := (s.drop i).take 6
  w.length == 6 && w.all Char.isDigit

/-- Case-insensitive single-character match (the `i` flag over ASCII). -/
def charCIAt (s : List Char) (i : Nat) (lo hi : Char) : Bool :=
  match charAt s i with
  | some x => x = lo || x = hi
  | none => false

/-- The literal `pid` of the optional label, case-insensitively. -/
def pidLabelAt (s : List Char) (i : Nat) : Bool :=
  charCIAt s i 'p' 'P' && charCIAt s (i + 1) 'i' 'I' && charCIAt s (i + 2) 'd' 'D'

/-- Greedy `\s*` starting at `i`: the first position at or after `i` whose
character is not whitespace. -/
def skipSpaces (s : List Char) (i : Nat) : Nat :=
  i + ((s.drop i).takeWhile jsIsSpace).length

/-- `[:\-]` matches at position `i`. -/
def sepAt (s : List Char) (i : Nat) : Bool :=
  match charAt s i with
  | some c => c = ':' || c = '-'
  | none => false

/-- End position of the greedy label `pid\s*[:\-]?\s*` when it matches at
`i` (its character classes are pairwise disjoint, so greedy matching with
backtracking is equivalent to maximal munch). -/
def labelEnd (s : List Char) (i : Nat) : Option Nat :=
  if pidLabelAt s i then
    let a := skipSpaces s (i + 3)
    let b := if sepAt s a then a + 1 else a
    some (skipSpaces s b)
  else none

/-- Leftmost-alternative match of `\b(?:pid\s*[:\-]?\s*)?(\d{6})\b` anchored
at position `i`: returns the start of the captured digit run.  The engine
first tries the alternative with the label present, then without. -/
def matchAt (s : List Char) (i : Nat) : Option Nat :=
  if boundaryAt s i then
    let fb := if sixDigitsAt s i && boundaryAt s (i + 6) then some i else none
    match labelEnd s i with
    | some k => if sixDigitsAt s k && boundaryAt s (k + 6) then some k else fb
    | none => fb
  else none

/-- The global `exec` loop: find the leftmost match at or after `i`, emit
its capture, continue from the match end (`lastIndex`).  `fuel` bounds the
recursion; it is called with `s.length + 1`, which always suffices. -/
def scanPids (s : List Char) : Nat → Nat → List (List Char)
  | 0, _ => []
  | fuel + 1, i =>
    match matchAt s i with
    | some d => ((s.drop d).take 6) :: scanPids s fuel (d + 6)
    | none => if i < s.length then scanPids s fuel (i + 1) else []

/-- JS `Set` insertion: keep first occurrences, in order. -/
def dedupFirst (l : List (List Char)) : List (List Char) :=
  l.foldl (fun acc x => if x ∈ acc then acc else acc ++ [x]) []

/-- `extractPids` from `api/backend.js` (identical in all variants). -/
def extractPids (text : String) : List String :=
  (dedupFirst (scanPids text.data (text.data.length + 1) 0)).map (fun l => String.mk l)

/-! #### Declarative characterization of PID extraction (from the spec) -/

/-- The slice `s[a..b)`. -/
def sliceCh (s : List Char) (a b : Nat) : List Char := (s.drop a).take (b - a)

/-- A string of the shape `\s*[:\-]?\s*`: every character is whitespace or a
separator, and at most one is a separator. -/
def sepSpacesOnly (w : List Char) : Bool :=
  w.all (fun c => jsIsSpace c || c = ':' || c = '-') &&
    decide ((w.filter (fun c => !jsIsSpace c)).length ≤ 1)

/-- Modelled from the spec: position `d` starts a 6-digit run that is
optionally preceded by a case-insensitive `pid` label (with optional
colon/dash separator and whitespace) and the whole match is bounded by word
boundaries on both sides. -/
def pidLabelBefore (s : List Char) (d : Nat) : Bool :=
  (List.range d).any (fun j =>
    decide (j + 3 ≤ d) && boundaryAt s j && pidLabelAt s j &&
      sepSpacesOnly (sliceCh s (j + 3) d))

def validRunAt (s : List Char) (d : Nat) : Bool :=
  sixDigitsAt s d && boundaryAt s (d + 6) && (boundaryAt s d || pidLabelBefore s d)

/-- Modelled from the spec: the distinct 6-digit runs that qualify per
`validRunAt`, in textual (first-seen) order. -/
def pidRunsSpec (text : String) : List String :=
  (dedupFirst ((List.range text.data.length).filterMap
    (fun d => if validRunAt text.data d then some ((text.data.drop d).take 6) else none))).map
    (fun l => String.mk l)

/-- Every valid run at or after `i` is reachable by the scan from `i`: it
either carries its own left word boundary or a full label witness that has
not been passed yet. -/
def HasWit (s : List Char) (i : Nat) : Prop :=
  ∀ d, validRunAt s d = true → i ≤ d →
    boundaryAt s d = true ∨
    ∃ j, i ≤ j ∧ j + 3 ≤ d ∧ boundaryAt s j = true ∧ pidLabelAt s j = true ∧
      sepSpacesOnly (sliceCh s (j + 3) d) = true


/-! ### Chat line parsing

`parseChat` splits on `/\r?\n/` and matches each line against
`^(\d{1,2})\/(\d{1,2})\/(\d{2,4}),\s+(\d{1,2}):(\d{2})\s*(am|pm)?\s*-\s([^:]+):\s([\s\S]*)$`.
On this pattern greedy matching with backtracking is deterministic, so we
model it by a maximal-munch parser. -/

/-- Split on `/\r?\n/`: each `\n`, optionally preceded by `\r`, separates
lines; a lone `\r` is ordinary content. -/
def splitLinesAux : List Char → List Char → List (List Char)
  | [], acc => [acc.reverse]
  | '\r' :: '\n' :: rest, acc => acc.reverse :: splitLinesAux rest []
  | '\n' :: rest, acc => acc.reverse :: splitLinesAux rest []
  | c :: rest, acc => splitLinesAux rest (c :: acc)

def splitLinesJs (s : String) : List String :=
  (splitLinesAux s.data []).map (fun l => String.mk l)

/-- The capture groups of the chat-line regex. -/
structure LineMatch where
  dStr : List Char
  moStr : List Char
  yStr : List Char
  hhStr : List Char
  mmStr : List Char
  ampm : Option (List Char)
  sender : String
  text : String
deriving DecidableEq, Repr

/-- Greedy run of digits (a `\d{lo,hi}` group followed by a non-digit
delimiter backtracks to nothing useful, so the run must have a length in
range with the delimiter right after it). -/
def takeDigitRun (l : List Char) : List Char × List Char :=
  (l.takeWhile Char.isDigit, l.dropWhile Char.isDigit)

/-- Match `^(\d{1,2})\/(\d{1,2})\/(\d{2,4}),\s+(\d{1,2}):(\d{2})\s*(am|pm)?\s*-\s([^:]+):\s([\s\S]*)$`
against one line (case-insensitively for the am/pm group). -/
def execLineRegex (raw : String) : Option LineMatch :=
  let (ds, r1) := takeDigitRun raw.data
  if ds.length = 0 || ds.length > 2 then none else
  match r1 with
  | '/' :: r2 =>
    let (ms, r3) := takeDigitRun r2
    if ms.length = 0 || ms.length > 2 then none else
    match r3 with
    | '/' :: r4 =>
      let (ys, r5) := takeDigitRun r4
      if ys.length < 2 || ys.length > 4 then none else
      match r5 with
      | ',' :: r6 =>
        let sp := r6.takeWhile jsIsSpace
        if sp.length = 0 then none else
        let r7 := r6.dropWhile jsIsSpace
        let (hs, r8) := takeDigitRun r7
        if hs.length = 0 || hs.length > 2 then none else
        match r8 with
        | ':' :: r9 =>
          match r9 with
          | m1 :: m2 :: r10 =>
            if !(m1.isDigit && m2.isDigit) then none else
            let r11 := r10.dropWhile jsIsSpace
            let (ap, r12) :=
              match r11 with
              | a :: m :: rest =>
                if (a = 'a' || a = 'A' || a = 'p' || a = 'P') && (m = 'm' || m = 'M')
                then (some [a, m], rest) else (none, r11)
              | _ => (none, r11)
            let r13 := r12.dropWhile jsIsSpace
            match r13 with
            | '-' :: w :: r14 =>
              if !jsIsSpace w then none else
              let sv := r14.takeWhile (fun c => c ≠ ':')
              if sv.length = 0 then none else
              match r14.dropWhile (fun c => c ≠ ':') with
              | ':' :: w2 :: rest =>
                if !jsIsSpace w2 then none else
                some ⟨ds, ms, ys, hs, [m1, m2], ap, String.mk sv, String.mk rest⟩
              | _ => none
            | _ => none
          | _ => none
        | _ => none
      | _ => none
    | _ => none
  | _ => none

def natOfDigits (l : List Char) : Nat :=
  l.foldl (fun n c => n * 10 + (c.toNat - 48)) 0

/-- `parseIstDate` composed with the `Date` constructor on the ISO string
`YYYY-MM-DDTHH:MM:00.000+05:30`: `none` models an invalid date (`NaN`).
Per the ECMAScript date-time string format, the components must be in
range; hour 24 is allowed when the minutes are 0. -/
def parseIstDate (m : LineMatch) : Option Int :=
  let year : Int := if m.yStr.length = 2 then natOfDigits m.yStr + 2000 else natOfDigits m.yStr
  let hour0 : Int := natOfDigits m.hhStr
  let minute : Int := natOfDigits m.mmStr
  let hour : Int :=
    match m.ampm with
    | some ap =>
      let apl := ap.map Char.toLower
      if apl = ['p', 'm'] && hour0 < 12 then hour0 + 12
      else if apl = ['a', 'm'] && hour0 = 12 then 0
      else hour0
    | none => hour0
  let month : Int := natOfDigits m.moStr
  let day : Int := natOfDigits m.dStr
  if 1 ≤ month && month ≤ 12 && 1 ≤ day && day ≤ daysInMonth year month &&
      (hour ≤ 23 || (hour = 24 && minute = 0)) && minute ≤ 59 then
    some (istMillis year month day hour minute)
  else none

/-- JS `String.prototype.trim` at `String` level. -/
def trimStr (s : String) : String := String.mk (trimChars s.data)

/-- `parseChat` from `api/backend.js`: parse each line, drop lines that do
not match or whose date is invalid, and keep only messages strictly after
the cutoff instant. -/
def parseChat (chatText : String) (cutoff : Int) : List Msg :=
  (splitLinesJs chatText).filterMap (fun raw =>
    match execLineRegex raw with
    | none => none
    | some lm =>
      match parseIstDate lm with
      | none => none
      | some ts =>
        if ts ≤ cutoff then none
        else some ⟨ts, trimStr lm.sender, trimStr lm.text⟩)

/-- The cutoff instant the handler builds from the `cutoffDate` field:
midnight at the start of the given calendar date at the fixed +05:30
offset. -/
def cutoffInstant (y m d : Int) : Int := istMillis y m d 0 0

/-! ### Timeline building -/

/-- Append a message to the timeline of `pid`, creating the entry at the end
when absent (JS `Map` insertion order). -/
def updateAssoc : List (String × List Msg) → String → Msg → List (String × List Msg)
  | [], pid, m => [(pid, [m])]
  | (k, v) :: rest, pid, m =>
    if k = pid then (k, v ++ [m]) :: rest else (k, v) :: updateAssoc rest pid m

/-- First value bound to `pid`, if any. -/
def findTl : List (String × List Msg) → String → Option (List Msg)
  | [], _ => none
  | (k, v) :: rest, pid => if k = pid then some v else findTl rest pid

/-- The timestamp preorder used by `arr.sort((a,b) => a.ts - b.ts)`. -/
def tsLe (a b : Msg) : Prop := a.ts ≤ b.ts

instance : DecidableRel tsLe := fun a b => inferInstanceAs (Decidable (a.ts ≤ b.ts))

instance : IsTotal Msg tsLe := ⟨fun a b => Int.le_total a.ts b.ts⟩

instance : IsTrans Msg tsLe := ⟨fun _ _ _ h1 h2 => le_trans h1 h2⟩

/-- `buildPidTimelines`: group the messages under every PID they mention,
then sort each group by timestamp (stable). -/
def buildPidTimelines (msgs : List Msg) : List (String × List Msg) :=
  let grouped := msgs.foldl
    (fun tls m => (extractPids m.text).foldl (fun t pid => updateAssoc t pid m) tls) []
  grouped.map (fun pr => (pr.1, List.insertionSort tsLe pr.2))

/-- Appending a batch to an optional timeline (`none` stands for an absent
`Map` entry); used to state the effect of the grouping fold. -/
def optAppend (o : Option (List Msg)) (l : List Msg) : Option (List Msg) :=
  match l with
  | [] => o
  | _ => some (o.getD [] ++ l)

/-! ### Mapping metadata -/

structure MetaEntry where
  designer : String
  merch : String
deriving DecidableEq, Repr

/-- `pidMap.get(pid)` over the association-list model. -/
def findMeta : List (String × MetaEntry) → String → Option MetaEntry
  | [], _ => none
  | (k, v) :: rest, pid => if k = pid then some v else findMeta rest pid

/-! ### Policy B — message-intent / assigned-merchandiser model

Two source variants implement it: `enrichAndSummarize` in `api/backend.js`
(rich rows, no sorting) and `summarizeRows` in the filesystem variant
(compact rows, sorted).  Both share the same classification core. -/

/-- A message annotated with the two classification tags. -/
structure AnnMsg where
  ts : Int
  sender : String
  text : String
  isCsLike : Bool
  isAssignedMerch : Bool
deriving DecidableEq, Repr

def annotate (assignedMerch : String) (m : Msg) : AnnMsg :=
  ⟨m.ts, m.sender, m.text, isLikelyCsMessage m.text,
    senderMatchesMerch m.sender assignedMerch⟩

/-- `text.slice(0, 160)`. -/
def take160 (s : String) : String := String.mk (s.data.take 160)

/-- A row of `enrichAndSummarize` in `api/backend.js`. -/
structure RowB where
  pid : String
  designer : String
  assigned_merch : String
  status : String
  age_hhmm : String
  latest_cs_preview : String
  cs_ts_ist : String
  last_merch_preview : String
  merch_ts_ist : String
  notes : String
deriving DecidableEq, Repr

/-- The per-PID body of `enrichAndSummarize` (`api/backend.js`). -/
def rowB (pidMap : List (String × MetaEntry)) (pid : String) (msgs : List Msg)
    (now slaMinutes : Int) : RowB :=
  let meta := (findMeta pidMap pid).getD ⟨"", ""⟩
  let assignedMerch := meta.merch
  let ann := msgs.map (annotate assignedMerch)
  let latestCs := ann.reverse.find? (fun x => x.isCsLike)
  let latestAssigned := ann.reverse.find? (fun x => x.isAssignedMerch)
  match latestCs with
  | none => ⟨pid, meta.designer, assignedMerch, "Closed", "", "", "", "", "", ""⟩
  | some lc =>
    let csTs := lc.ts
    let preview := take160 lc.text
    let isOpen : Bool :=
      match latestAssigned with
      | none => true
      | some la => decide (la.ts ≤ lc.ts)
    if isOpen then
      let age := now - csTs
      let status := if age > slaMinutes * 60 * 1000 then "Open — Breached" else "Open"
      ⟨pid, meta.designer, assignedMerch, status, diffToHHMM age, preview,
        fmtIst csTs, "", "", ""⟩
    else
      let la := latestAssigned.getD lc
      ⟨pid, meta.designer, assignedMerch, "Closed", "", preview, fmtIst csTs,
        take160 la.text, fmtIst la.ts, ""⟩

/-- `enrichAndSummarize` from `api/backend.js`: one row per timeline, in
timeline order (this variant does not sort). -/
def enrichAndSummarize (pidMap : List (String × MetaEntry))
    (timelines : List (String × List Msg)) (now slaMinutes : Int) : List RowB :=
  timelines.map (fun pr => rowB pidMap pr.1 pr.2 now slaMinutes)

/-- A row of the sorted Policy-B variant (`summarizeRows`, filesystem
variant of `api/backend.js`). -/
structure RowB6 where
  pid : String
  designer : String
  assigned_merch : String
  status : String
  latest_cs_preview : String
  cs_ts_ist : String
deriving DecidableEq, Repr

/-- The per-PID body of the sorted Policy-B `summarizeRows`. -/
def rowB6 (pidMap : List (String × MetaEntry)) (pid : String) (msgs : List Msg)
    (now slaMinutes : Int) : RowB6 :=
  let meta := (findMeta pidMap pid).getD ⟨"", ""⟩
  let assignedMerch := meta.merch
  let ann := msgs.map (annotate assignedMerch)
  let latestCs := ann.reverse.find? (fun x => x.isCsLike)
  let latestAssigned := ann.reverse.find? (fun x => x.isAssignedMerch)
  match latestCs with
  | none => ⟨pid, meta.designer, assignedMerch, "Closed", "", ""⟩
  | some lc =>
    let isOpen : Bool :=
      match latestAssigned with
      | none => true
      | some la => decide (la.ts ≤ lc.ts)
    let status :=
      if isOpen then
        if now - lc.ts > slaMinutes * 60 * 1000 then "Open — Breached" else "Open"
      else "Closed"
    ⟨pid, meta.designer, assignedMerch, status, take160 lc.text, fmtIst lc.ts⟩

/-- `s.startsWith('Open — Breached') ? 0 : s.startsWith('Open') ? 1 : 2`. -/
def rankB (s : String) : Nat :=
  if s.startsWith "Open — Breached" then 0 else if s.startsWith "Open" then 1 else 2

/-- `localeCompare` modelled as code-point lexicographic comparison (the
rendered timestamps share one fixed ASCII shape). -/
def strCmp (x y : String) : Int := if x < y then -1 else if y < x then 1 else 0

/-- The Policy-B comparator: rank, then newest `cs_ts_ist` first. -/
def cmpB (a b : RowB6) : Int :=
  let r : Int := (rankB a.status : Int) - (rankB b.status : Int)
  if r ≠ 0 then r else strCmp b.cs_ts_ist a.cs_ts_ist

def leRowB6 (a b : RowB6) : Prop := cmpB a b ≤ 0

instance : DecidableRel leRowB6 := fun a b => inferInstanceAs (Decidable (cmpB a b ≤ 0))

/-- The sorted Policy-B `summarizeRows` (filesystem variant). -/
def summarizeRowsB (pidMap : List (String × MetaEntry))
    (timelines : List (String × List Msg)) (now slaMinutes : Int) : List RowB6 :=
  List.insertionSort leRowB6
    (timelines.map (fun pr => rowB6 pidMap pr.1 pr.2 now slaMinutes))

/-! ### Policy A — alternating-sender model (`summarizeRows`, upload
variant) -/

/-- The status / inclusion decision of Policy A for a timeline with first
message `first` and optional immediate successor `next?`. -/
def classifyA (first : Msg) (next? : Option Msg) (now slaMs : Int) : String × Bool :=
  match next? with
  | some next =>
    let gap := next.ts - first.ts
    if next.sender ≠ first.sender then
      if gap > slaMs then ("Open — Breached", true) else ("Closed", false)
    else
      let age := now - first.ts
      if age > slaMs then ("Open — Breached", true) else ("Open", false)
  | none =>
    let age := now - first.ts
    if age > slaMs then ("Open — Breached", true) else ("Open", false)

/-- A row of the Policy-A `summarizeRows`. -/
structure RowA where
  pid : String
  designer : String
  assigned_merch : String
  status : String
  first_cs_preview : String
  first_cs_ts_ist : String
  latest_cs_preview : String
  cs_ts_ist : String
deriving DecidableEq, Repr

/-- The per-PID body of the Policy-A `summarizeRows`: `none` when the row is
excluded from the report. -/
def rowA (pidMap : List (String × MetaEntry)) (pid : String) (arr : List Msg)
    (now slaMs : Int) : Option RowA :=
  match arr with
  | [] => none
  | first :: rest =>
    let meta := (findMeta pidMap pid).getD ⟨"", ""⟩
    let latest := rest.getLastD first
    let sc := classifyA first rest.head? now slaMs
    if sc.2 then
      some ⟨pid, meta.designer, meta.merch, sc.1, take160 first.text,
        fmtIst first.ts, take160 latest.text, fmtIst latest.ts⟩
    else none

/-- `s.startsWith('Open — Breached') ? 0 : 1`. -/
def rankA (s : String) : Nat := if s.startsWith "Open — Breached" then 0 else 1

/-- The Policy-A comparator: rank, then newest `first_cs_ts_ist` first. -/
def cmpA (a b : RowA) : Int :=
  let r : Int := (rankA a.status : Int) - (rankA b.status : Int)
  if r ≠ 0 then r else strCmp b.first_cs_ts_ist a.first_cs_ts_ist

def leRowA (a b : RowA) : Prop := cmpA a b ≤ 0

instance : DecidableRel leRowA := fun a b => inferInstanceAs (Decidable (cmpA a b ≤ 0))

/-- `summarizeRows` from the upload variant (Policy A): recompute the SLA
window (`Math.max(1, parseInt(slaMinutes || 60, 10)) * 60 * 1000`, where
`|| 60` replaces a falsy 0), keep only included rows, count mapped PIDs,
sort. -/
def summarizeRowsA (pidMap : List (String × MetaEntry))
    (timelines : List (String × List Msg)) (now slaMinutes : Int) :
    List RowA × Nat :=
  let slaMs := (max 1 (if slaMinutes = 0 then 60 else slaMinutes)) * 60 * 1000
  let rows := timelines.filterMap (fun pr => rowA pidMap pr.1 pr.2 now slaMs)
  let matched := (timelines.filter (fun pr =>
    !pr.2.isEmpty &&
      (let meta := (findMeta pidMap pr.1).getD ⟨"", ""⟩
       !meta.designer.isEmpty || !meta.merch.isEmpty))).length
  (List.insertionSort leRowA rows, matched)

/-! ### Handler-level SLA resolution

`Math.max(1, parseInt(slaMinutes ?? default, 10))`; `parseInt` of an
integer-valued input is the integer itself. -/

/-- Policy-A handler default: 60 minutes. -/
def handlerSlaA (slaMinutes : Option Int) : Int := max 1 (slaMinutes.getD 60)

/-- Policy-B handler default: 120 minutes. -/
def handlerSlaB (slaMinutes : Option Int) : Int := max 1 (slaMinutes.getD 120)

/-! ### CSV rendering and parsing -/

/-- `v.replace(/"/g, '""')`. -/
def dupQuotes : List Char → List Char
  | [] => []
  | c :: t => if c = '"' then '"' :: '"' :: dupQuotes t else c :: dupQuotes t

/-- `escCsv`: wrap in double quotes, doubling inner quotes, iff the value
contains a comma, double quote, or newline. -/
def escCsv (s : String) : String :=
  if s.data.any (fun c => c = '"' || c = ',' || c = '\n') then
    "\"" ++ String.mk (dupQuotes s.data) ++ "\""
  else s

/-- `Array.prototype.join(sep)`. -/
def joinSep (sep : String) : List String → String
  | [] => ""
  | [x] => x
  | x :: y :: r => x ++ sep ++ joinSep sep (y :: r)

def headersB : List String :=
  ["pid", "designer", "assigned_merch", "status", "age_hhmm",
   "latest_cs_preview", "cs_ts_ist", "last_merch_preview", "merch_ts_ist", "notes"]

def rowFieldsB (r : RowB) : List String :=
  [r.pid, r.designer, r.assigned_merch, r.status, r.age_hhmm,
   r.latest_cs_preview, r.cs_ts_ist, r.last_merch_preview, r.merch_ts_ist, r.notes]

/-- `toCsv` from `api/backend.js`: header line plus one escaped line per
row, joined with `\n`. -/
def toCsv (rows : List RowB) : String :=
  joinSep "\n" (joinSep "," headersB ::
    rows.map (fun r => joinSep "," ((rowFieldsB r).map escCsv)))

/-- The character-level state machine of `parseCsvRobust` (filesystem
variant, the one without BOM stripping): `field`/`row` are the current
accumulators, `rows` the finished rows, and the final `Bool` is the
inside-quotes state. -/
def csvLoop : List Char → List Char → List (List Char) → List (List (List Char)) →
    Bool → List (List (List Char))
  | [], field, row, rows, _ =>
    if field.isEmpty && row.isEmpty then rows else rows ++ [row ++ [field]]
  | '"' :: '"' :: rest, field, row, rows, true => csvLoop rest (field ++ ['"']) row rows true
  | '"' :: rest, field, row, rows, true => csvLoop rest field row rows false
  | c :: rest, field, row, rows, true => csvLoop rest (field ++ [c]) row rows true
  | '"' :: rest, field, row, rows, false => csvLoop rest field row rows true
  | ',' :: rest, field, row, rows, false => csvLoop rest [] (row ++ [field]) rows false
  | '\r' :: rest, field, row, rows, false => csvLoop rest field row rows false
  | '\n' :: rest, field, row, rows, false => csvLoop rest [] [] (rows ++ [row ++ [field]]) false
  | c :: rest, field, row, rows, false => csvLoop rest (field ++ [c]) row rows false

/-- `parseCsvRobust` (filesystem variant of `api/backend.js`). -/
def parseCsvRobust (text : String) : List (List String) :=
  (csvLoop text.data [] [] [] false).map (fun row => row.map (fun f => String.mk f))

/-! ## Comparator lemmas for the report orderings -/

theorem cmpA_le_iff (a b : RowA) :
    cmpA a b ≤ 0 ↔ (rankA a.status < rankA b.status ∨
      (rankA a.status = rankA b.status ∧ b.first_cs_ts_ist ≤ a.first_cs_ts_ist)) := by
  unfold cmpA strCmp
  by_cases hr : ((rankA a.status : Int) - (rankA b.status : Int)) = 0
  · have he : rankA a.status = rankA b.status := by omega
    by_cases h1 : b.first_cs_ts_ist < a.first_cs_ts_ist
    · simp [hr, h1, he, le_of_lt h1]
    · by_cases h2 : a.first_cs_ts_ist < b.first_cs_ts_ist
      · simp [hr, h1, h2, he, not_le.mpr h2]
      · have he2 : a.first_cs_ts_ist = b.first_cs_ts_ist :=
          le_antisymm (not_lt.mp h1) (not_lt.mp h2)
        simp [hr, h1, h2, he, he2]
  · have hne : rankA a.status ≠ rankA b.status := by omega
    simp only [if_neg hr]
    constructor
    · intro h
      exact Or.inl (by omega)
    · rintro (h | ⟨h, -⟩)
      · omega
      · exact absurd h hne

theorem leRowA_total (a b : RowA) : leRowA a b ∨ leRowA b a := by
  unfold leRowA
  rw [cmpA_le_iff, cmpA_le_iff]
  rcases Nat.lt_trichotomy (rankA a.status) (rankA b.status) with h | h | h
  · exact Or.inl (Or.inl h)
  · rcases le_total b.first_cs_ts_ist a.first_cs_ts_ist with hs | hs
    · exact Or.inl (Or.inr ⟨h, hs⟩)
    · exact Or.inr (Or.inr ⟨h.symm, hs⟩)
  · exact Or.inr (Or.inl h)

theorem leRowA_trans (a b c : RowA) (hab : leRowA a b) (hbc : leRowA b c) : leRowA a c := by
  unfold leRowA at hab hbc ⊢
  rw [cmpA_le_iff] at hab hbc ⊢
  rcases hab with h1 | ⟨h1, h1'⟩ <;> rcases hbc with h2 | ⟨h2, h2'⟩
  · exact Or.inl (by omega)
  · exact Or.inl (by omega)
  · exact Or.inl (by omega)
  · exact Or.inr ⟨by omega, le_trans h2' h1'⟩

theorem cmpB_le_iff (a b : RowB6) :
    cmpB a b ≤ 0 ↔ (rankB a.status < rankB b.status ∨
      (rankB a.status = rankB b.status ∧ b.cs_ts_ist ≤ a.cs_ts_ist)) := by
  unfold cmpB strCmp
  by_cases hr : ((rankB a.status : Int) - (rankB b.status : Int)) = 0
  · have he : rankB a.status = rankB b.status := by omega
    by_cases h1 : b.cs_ts_ist < a.cs_ts_ist
    · simp [hr, h1, he, le_of_lt h1]
    · by_cases h2 : a.cs_ts_ist < b.cs_ts_ist
      · simp [hr, h1, h2, he, not_le.mpr h2]
      · have he2 : a.cs_ts_ist = b.cs_ts_ist :=
          le_antisymm (not_lt.mp h1) (not_lt.mp h2)
        simp [hr, h1, h2, he, he2]
  · have hne : rankB a.status ≠ rankB b.status := by omega
    simp only [if_neg hr]
    constructor
    · intro h
      exact Or.inl (by omega)
    · rintro (h | ⟨h, -⟩)
      · omega
      · exact absurd h hne

theorem leRowB6_total (a b : RowB6) : leRowB6 a b ∨ leRowB6 b a := by
  unfold leRowB6
  rw [cmpB_le_iff, cmpB_le_iff]
  rcases Nat.lt_trichotomy (rankB a.status) (rankB b.status) with h | h | h
  · exact Or.inl (Or.inl h)
  · rcases le_total b.cs_ts_ist a.cs_ts_ist with hs | hs
    · exact Or.inl (Or.inr ⟨h, hs⟩)
    · exact Or.inr (Or.inr ⟨h.symm, hs⟩)
  · exact Or.inr (Or.inl h)

theorem leRowB6_trans (a b c : RowB6) (hab : leRowB6 a b) (hbc : leRowB6 b c) :
    leRowB6 a c := by
  unfold leRowB6 at hab hbc ⊢
  rw [cmpB_le_iff] at hab hbc ⊢
  rcases hab with h1 | ⟨h1, h1'⟩ <;> rcases hbc with h2 | ⟨h2, h2'⟩
  · exact Or.inl (by omega)
  · exact Or.inl (by omega)
  · exact Or.inl (by omega)
  · exact Or.inr ⟨by omega, le_trans h2' h1'⟩

/-! ## Claim C1 — Policy A classification -/

/-- Claim C1: for every non-empty PID timeline, with `first` its earliest
message and `next` its second message (if any), the Policy-A classifier
returns Open-Breached and includes the row when there is no successor and
`now - first.ts` exceeds the SLA window (else Open, excluded); when a
successor from a different sender exists it returns Open-Breached and
includes the row iff `next.ts - first.ts` exceeds the SLA, otherwise Closed
and excluded; and when the successor is from the same sender it returns
Open-Breached and includes the row iff `now - first.ts` exceeds the SLA,
otherwise Open and excluded.  Inclusion is witnessed by the presence of the
PID's row in the `summarizeRows` output. -/
theorem policyA_classification (pidMap : List (String × MetaEntry)) (pid : String)
    (first : Msg) (rest : List Msg) (now slaMinutes slaMs : Int)
    (hms : slaMs = (max 1 (if slaMinutes = 0 then 60 else slaMinutes)) * 60 * 1000) :
    (rest = [] → classifyA first rest.head? now slaMs =
      if now - first.ts > slaMs then ("Open — Breached", true) else ("Open", false)) ∧
    (∀ next rest', rest = next :: rest' →
      (next.sender ≠ first.sender → classifyA first rest.head? now slaMs =
        if next.ts - first.ts > slaMs then ("Open — Breached", true)
        else ("Closed", false)) ∧
      (next.sender = first.sender → classifyA first rest.head? now slaMs =
        if now - first.ts > slaMs then ("Open — Breached", true) else ("Open", false))) ∧
    ((∃ r ∈ (summarizeRowsA pidMap [(pid, first :: rest)] now slaMinutes).1, r.pid = pid) ↔
      (classifyA first rest.head? now slaMs).2 = true) := by
  refine ⟨fun h => by subst h; rfl, fun next rest' h => ?_, ?_⟩
  · subst h
    constructor
    · intro hne
      simp [classifyA, hne]
    · intro heq
      simp [classifyA, heq]
  · subst hms
    cases hsc : (classifyA first rest.head? now
        ((max 1 (if slaMinutes = 0 then 60 else slaMinutes)) * 60 * 1000)).2
    · simp [summarizeRowsA, rowA, hsc]
    · simp [summarizeRowsA, rowA, hsc, List.insertionSort]

/-- Witness for C1: a two-message timeline with distinct senders replying
within the SLA window is classified Closed and excluded. -/
theorem policyA_classification_witness :
    classifyA ⟨0, "a", "t"⟩ (some ⟨100, "b", "u"⟩) 1000000 3600000 =
      ("Closed", false) := by
  have h := policyA_classification [] "123456" ⟨0, "a", "t"⟩ [⟨100, "b", "u"⟩]
    1000000 60 3600000 (by norm_num)
  have h2 := (h.2.1 ⟨100, "b", "u"⟩ [] rfl).1 (by decide)
  simpa using h2

/-! ## Claim C7 — report orderings -/

/-- Claim C7: under Policy B the emitted rows are ordered Open-Breached,
then Open, then Closed, and within each tier descending by the formatted
latest-event timestamp string; under Policy A, Open-Breached rows come
first and within each tier rows are ordered descending by the first
message's formatted timestamp string (lexicographic comparison of the
rendered form). -/
theorem report_ordering (pidMap : List (String × MetaEntry))
    (tls : List (String × List Msg)) (now slaMinutes : Int) :
    ((summarizeRowsA pidMap tls now slaMinutes).1).Pairwise (fun a b =>
       rankA a.status ≤ rankA b.status ∧
       (rankA a.status = rankA b.status → b.first_cs_ts_ist ≤ a.first_cs_ts_ist)) ∧
    (summarizeRowsB pidMap tls now slaMinutes).Pairwise (fun a b =>
       rankB a.status ≤ rankB b.status ∧
       (rankB a.status = rankB b.status → b.cs_ts_ist ≤ a.cs_ts_ist)) := by
  haveI : IsTotal RowA leRowA := ⟨leRowA_total⟩
  haveI : IsTrans RowA leRowA := ⟨leRowA_trans⟩
  haveI : IsTotal RowB6 leRowB6 := ⟨leRowB6_total⟩
  haveI : IsTrans RowB6 leRowB6 := ⟨leRowB6_trans⟩
  constructor
  · have h := List.sorted_insertionSort leRowA
      (tls.filterMap (fun pr => rowA pidMap pr.1 pr.2 now
        ((max 1 (if slaMinutes = 0 then 60 else slaMinutes)) * 60 * 1000)))
    refine List.Pairwise.imp ?_ h
    intro a b hab
    have hab' : cmpA a b ≤ 0 := hab
    rw [cmpA_le_iff] at hab'
    rcases hab' with h1 | ⟨h1, h1'⟩
    · exact ⟨le_of_lt h1, fun he => absurd h1 (by omega)⟩
    · exact ⟨le_of_eq h1, fun _ => h1'⟩
  · have h := List.sorted_insertionSort leRowB6
      (tls.map (fun pr => rowB6 pidMap pr.1 pr.2 now slaMinutes))
    refine List.Pairwise.imp ?_ h
    intro a b hab
    have hab' : cmpB a b ≤ 0 := hab
    rw [cmpB_le_iff] at hab'
    rcases hab' with h1 | ⟨h1, h1'⟩
    · exact ⟨le_of_lt h1, fun he => absurd h1 (by omega)⟩
    · exact ⟨le_of_eq h1, fun _ => h1'⟩

/-! ## Claim C8 — fuzzy merchandiser match (corrected) -/

/-- Counterexample for C8 as stated: for sender `"a"` and merchandiser name
`"!"` the normalized merchandiser name is empty, so the claim's rule
(either normalized string contains the other) would match — the empty
string is contained in everything — but the code returns `false` because of
its emptiness guard. -/
theorem senderMatchesMerch_claim_counterexample :
    senderMatchesMerch "a" "!" = false ∧ senderMatchSpecLiteral "a" "!" = true := by
  constructor <;> decide

/-- Claim C8 (amended): the match predicate holds iff both normalized
strings are non-empty and, after normalizing both by lower-casing,
collapsing whitespace, and stripping non-alphanumerics, either normalized
string contains the other, or at least `⌈0.6·n⌉` (minimum 1) of the
merchandiser name's `n` whitespace-separated tokens occur as substrings of
the normalized sender. -/
theorem senderMatchesMerch_fuzzy (sender merchName : String) :
    senderMatchesMerch sender merchName =
      (!(normName sender).data.isEmpty && !(normName merchName).data.isEmpty &&
        senderMatchSpecLiteral sender merchName) := by
  unfold senderMatchesMerch senderMatchSpecLiteral
  cases h1 : (normName sender).data.isEmpty <;>
    cases h2 : (normName merchName).data.isEmpty <;>
      simp [h1, h2]

/-! ## Claim C10 — effective SLA -/

/-- Claim C10: the effective SLA used for classification is
`max 1 (parseInt slaMinutes)` minutes with a policy-specific default (120
for Policy B, 60 for Policy A) when `slaMinutes` is absent; hence for every
integer `slaMinutes ≤ 0` the engine classifies exactly as if `slaMinutes`
were 1. -/
theorem sla_effective :
    handlerSlaA none = 60 ∧ handlerSlaB none = 120 ∧
    ∀ s : Int, s ≤ 0 →
      handlerSlaA (some s) = 1 ∧ handlerSlaB (some s) = 1 ∧
      ∀ (pidMap : List (String × MetaEntry)) (tls : List (String × List Msg)) (now : Int),
        summarizeRowsA pidMap tls now (handlerSlaA (some s)) =
          summarizeRowsA pidMap tls now (handlerSlaA (some 1)) ∧
        enrichAndSummarize pidMap tls now (handlerSlaB (some s)) =
          enrichAndSummarize pidMap tls now (handlerSlaB (some 1)) ∧
        summarizeRowsB pidMap tls now (handlerSlaB (some s)) =
          summarizeRowsB pidMap tls now (handlerSlaB (some 1)) := by
  have hA : handlerSlaA none = 60 := by simp [handlerSlaA]
  have hB : handlerSlaB none = 120 := by simp [handlerSlaB]
  refine ⟨hA, hB, fun s hs => ?_⟩
  have h1 : handlerSlaA (some s) = 1 := by
    simp only [handlerSlaA, Option.getD]
    omega
  have h2 : handlerSlaB (some s) = 1 := by
    simp only [handlerSlaB, Option.getD]
    omega
  have h1' : handlerSlaA (some 1) = 1 := by simp [handlerSlaA]
  have h2' : handlerSlaB (some 1) = 1 := by simp [handlerSlaB]
  exact ⟨h1, h2, fun pidMap tls now =>
    ⟨by rw [h1, h1'], by rw [h2, h2'], by rw [h2, h2']⟩⟩

/-- Witness for C10: `slaMinutes = -3` is clamped to 1 and yields the same
Policy-A report as `slaMinutes = 1`. -/
theorem sla_effective_witness :
    handlerSlaA (some (-3)) = 1 ∧
    summarizeRowsA [] [("123456", [⟨0, "a", "123456"⟩])] 100 (handlerSlaA (some (-3))) =
      summarizeRowsA [] [("123456", [⟨0, "a", "123456"⟩])] 100 (handlerSlaA (some 1)) := by
  have h2 := sla_effective.2.2 (-3) (by norm_num)
  exact ⟨h2.1, (h2.2.2 [] [("123456", [⟨0, "a", "123456"⟩])] 100).1⟩

/-! ## Reverse-search helper lemmas -/

theorem find?_reverse_split {α : Type} (l : List α) (p : α → Bool) (x : α)
    (h : l.reverse.find? p = some x) :
    ∃ l₁ l₂, l = l₁ ++ x :: l₂ ∧ (∀ y ∈ l₂, p y = false) ∧ p x = true := by
  induction l using List.reverseRecOn with
  | nil => simp at h
  | append_singleton l a ih =>
    rw [List.reverse_append, List.reverse_singleton, List.singleton_append] at h
    rw [List.find?] at h
    cases hpa : p a with
    | true =>
      rw [hpa] at h
      simp only [Option.some.injEq] at h
      subst h
      exact ⟨l, [], rfl, by simp, hpa⟩
    | false =>
      rw [hpa] at h
      obtain ⟨l₁, l₂, hl, hl₂, hx⟩ := ih h
      refine ⟨l₁, l₂ ++ [a], by rw [hl]; simp, ?_, hx⟩
      intro y hy
      rcases List.mem_append.mp hy with hy | hy
      · exact hl₂ y hy
      · rw [List.mem_singleton.mp hy]
        exact hpa

theorem find?_reverse_none {α : Type} (l : List α) (p : α → Bool)
    (h : l.reverse.find? p = none) : ∀ y ∈ l, p y = false := by
  intro y hy
  have := List.find?_eq_none.mp h y (List.mem_reverse.mpr hy)
  exact Bool.not_eq_true _ ▸ eq_false_of_ne_true this

/-- In a timestamp-sorted list, the last element satisfying `p` (found by
searching the reversed list) has the maximal timestamp among `p`-elements. -/
theorem sorted_last_sat (l : List AnnMsg) (p : AnnMsg → Bool) (x : AnnMsg)
    (hs : l.Pairwise (fun a b => a.ts ≤ b.ts))
    (h : l.reverse.find? p = some x) :
    p x = true ∧ ∀ m ∈ l, p m = true → m.ts ≤ x.ts := by
  obtain ⟨l₁, l₂, hl, hl₂, hx⟩ := find?_reverse_split l p x h
  subst hl
  refine ⟨hx, fun m hm hpm => ?_⟩
  rcases List.mem_append.mp hm with hm | hm
  · exact (List.pairwise_append.mp hs).2.2 m hm x (by simp)
  · rcases List.mem_cons.mp hm with hm | hm
    · rw [hm]
    · exact absurd hpm (by rw [hl₂ m hm]; simp)

theorem senderMatchesMerch_empty_merch (sender merch : String)
    (h : normName merch = "") : senderMatchesMerch sender merch = false := by
  unfold senderMatchesMerch
  rw [h]
  simp

/-! ## Claim C2 — Policy B classification -/

/-- Claim C2: for every (timestamp-sorted) PID timeline, if no message is
query-like the Policy-B row has status Closed with empty preview and
timestamp fields; otherwise, letting `lq` be the chronologically latest
query-like message (the reverse search returns a query-like message of
maximal timestamp) and `la` the chronologically latest message from the
assigned merchandiser, the status is Open when `la` does not exist or
`la.ts` is not strictly later than `lq.ts` — escalating to Open-Breached
exactly when `now - lq.ts` exceeds the SLA window — and Closed otherwise;
and every PID with a timeline yields a row regardless of status. -/
theorem policyB_classification (pidMap : List (String × MetaEntry)) (pid : String)
    (msgs : List Msg) (now slaMinutes : Int)
    (hs : msgs.Pairwise (fun a b => a.ts ≤ b.ts))
    (am : String) (ham : am = ((findMeta pidMap pid).getD ⟨"", ""⟩).merch)
    (ann : List AnnMsg) (hann : ann = msgs.map (annotate am))
    (row : RowB) (hrow : row = rowB pidMap pid msgs now slaMinutes) :
    ((∀ m ∈ ann, m.isCsLike = false) →
        row.status = "Closed" ∧ row.latest_cs_preview = "" ∧ row.cs_ts_ist = "" ∧
        row.age_hhmm = "" ∧ row.last_merch_preview = "" ∧ row.merch_ts_ist = "") ∧
    (∀ lq, ann.reverse.find? (fun x => x.isCsLike) = some lq →
        (lq.isCsLike = true ∧ ∀ m ∈ ann, m.isCsLike = true → m.ts ≤ lq.ts) ∧
        (∀ la, ann.reverse.find? (fun x => x.isAssignedMerch) = some la →
          la.isAssignedMerch = true ∧ ∀ m ∈ ann, m.isAssignedMerch = true → m.ts ≤ la.ts) ∧
        row.status =
          (match ann.reverse.find? (fun x => x.isAssignedMerch) with
           | none => if now - lq.ts > slaMinutes * 60 * 1000 then "Open — Breached" else "Open"
           | some la =>
             if la.ts ≤ lq.ts then
               (if now - lq.ts > slaMinutes * 60 * 1000 then "Open — Breached" else "Open")
             else "Closed")) ∧
    (∀ (tls : List (String × List Msg)),
      (enrichAndSummarize pidMap tls now slaMinutes).length = tls.length) := by
  subst ham hann hrow
  have hann_sorted : (msgs.map (annotate ((findMeta pidMap pid).getD ⟨"", ""⟩).merch)).Pairwise
      (fun a b => a.ts ≤ b.ts) := by
    rw [List.pairwise_map]
    exact hs
  refine ⟨?_, ?_, fun tls => by simp [enrichAndSummarize]⟩
  · intro hall
    have hnone : (msgs.map (annotate ((findMeta pidMap pid).getD ⟨"", ""⟩).merch)).reverse.find?
        (fun x => x.isCsLike) = none := by
      apply List.find?_eq_none.mpr
      intro x hx
      simp [hall x (List.mem_reverse.mp hx)]
    simp [rowB, hnone]
  · intro lq hlq
    have hmax := sorted_last_sat _ _ _ hann_sorted hlq
    refine ⟨hmax, ?_, ?_⟩
    · intro la hla
      exact sorted_last_sat _ _ _ hann_sorted hla
    · cases hla : (msgs.map (annotate ((findMeta pidMap pid).getD ⟨"", ""⟩).merch)).reverse.find?
          (fun x => x.isAssignedMerch) with
      | none => simp [rowB, hlq, hla]
      | some la =>
        by_cases hle : la.ts ≤ lq.ts
        · simp [rowB, hlq, hla, hle]
        · simp [rowB, hlq, hla, hle]

/-- Witness for C2: a single query-like message with no merchandiser reply
and an old timestamp is classified Open-Breached. -/
theorem policyB_classification_witness :
    (rowB [] "123456" [⟨0, "a", "update?"⟩] 1000000000 60).status = "Open — Breached" := by
  have h := policyB_classification [] "123456" [⟨0, "a", "update?"⟩] 1000000000 60
    (by simp) _ rfl _ rfl _ rfl
  have h2 := (h.2.1 (annotate "" ⟨0, "a", "update?"⟩) (by decide)).2.2
  rw [h2]
  decide

/-! ## Claim C9 — unmapped merchandiser forces Open under Policy B -/

/-- Claim C9: if a PID is unmapped, or its mapped merchandiser name
normalizes to the empty string, `senderMatchesMerch` returns `false` for
every sender, so under Policy B no message of that PID's timeline counts as
from the assigned merchandiser, and any such timeline containing at least
one query-like message is classified Open or Open-Breached, never
Closed. -/
theorem unmappedMerch_policyB_open (pidMap : List (String × MetaEntry)) (pid : String)
    (msgs : List Msg) (now slaMinutes : Int)
    (hempty : findMeta pidMap pid = none ∨
      normName ((findMeta pidMap pid).getD ⟨"", ""⟩).merch = "") :
    (∀ sender, senderMatchesMerch sender
        ((findMeta pidMap pid).getD ⟨"", ""⟩).merch = false) ∧
    ((∃ m ∈ msgs, isLikelyCsMessage m.text = true) →
      (rowB pidMap pid msgs now slaMinutes).status = "Open" ∨
      (rowB pidMap pid msgs now slaMinutes).status = "Open — Breached") := by
  have hnorm : normName ((findMeta pidMap pid).getD ⟨"", ""⟩).merch = "" := by
    rcases hempty with h | h
    · rw [h]
      decide
    · exact h
  have hfalse : ∀ sender, senderMatchesMerch sender
      ((findMeta pidMap pid).getD ⟨"", ""⟩).merch = false :=
    fun sender => senderMatchesMerch_empty_merch _ _ hnorm
  refine ⟨hfalse, fun ⟨m, hm, hcs⟩ => ?_⟩
  have hla : (msgs.map (annotate ((findMeta pidMap pid).getD ⟨"", ""⟩).merch)).reverse.find?
      (fun x => x.isAssignedMerch) = none := by
    apply List.find?_eq_none.mpr
    intro x hx
    obtain ⟨m', hm', hx'⟩ := List.mem_map.mp (List.mem_reverse.mp hx)
    simp [← hx', annotate, hfalse m'.sender]
  cases hlq : (msgs.map (annotate ((findMeta pidMap pid).getD ⟨"", ""⟩).merch)).reverse.find?
      (fun x => x.isCsLike) with
  | none =>
    have := find?_reverse_none _ _ hlq (annotate _ m) (List.mem_map.mpr ⟨m, hm, rfl⟩)
    rw [show (annotate ((findMeta pidMap pid).getD ⟨"", ""⟩).merch m).isCsLike =
      isLikelyCsMessage m.text from rfl] at this
    rw [hcs] at this
    exact absurd this (by simp)
  | some lq =>
    by_cases hb : now - lq.ts > slaMinutes * 60 * 1000
    · right
      simp [rowB, hlq, hla, hb]
    · left
      simp [rowB, hlq, hla, hb]

/-- Witness for C9: an unmapped PID whose only message is query-like is
reported Open or Open-Breached. -/
theorem unmappedMerch_policyB_open_witness :
    (rowB [] "999999" [⟨0, "cs", "any update?"⟩] 1000000 60).status = "Open" ∨
    (rowB [] "999999" [⟨0, "cs", "any update?"⟩] 1000000 60).status = "Open — Breached" := by
  have h := unmappedMerch_policyB_open [] "999999" [⟨0, "cs", "any update?"⟩]
    1000000 60 (Or.inl rfl)
  exact h.2 ⟨⟨0, "cs", "any update?"⟩, by simp, by decide⟩

/-! ## Claim C3 — cutoff filtering in the chat parser -/

/-- Claim C3: for every chat text and cutoff date, every message retained by
the chat parser has a timestamp strictly greater than the cutoff instant
(midnight at the start of the given calendar date at the fixed +05:30
offset, `cutoffInstant`); messages with timestamps earlier than or equal to
the cutoff are discarded before any further processing. -/
theorem parseChat_cutoff (chatText : String) (y mo d : Int) (m : Msg)
    (hm : m ∈ parseChat chatText (cutoffInstant y mo d)) :
    cutoffInstant y mo d < m.ts := by
  obtain ⟨raw, hraw, hsome⟩ := List.mem_filterMap.mp hm
  cases hexec : execLineRegex raw with
  | none =>
    simp only [hexec] at hsome
    exact absurd hsome (by simp)
  | some lm =>
    simp only [hexec] at hsome
    cases hts : parseIstDate lm with
    | none =>
      simp only [hts] at hsome
      exact absurd hsome (by simp)
    | some ts =>
      simp only [hts] at hsome
      by_cases hle : ts ≤ cutoffInstant y mo d
      · rw [if_pos hle] at hsome
        simp at hsome
      · rw [if_neg hle] at hsome
        simp only [Option.some.injEq] at hsome
        subst hsome
        exact not_le.mp hle

/-- Witness for C3: the sample chat line of 17 Oct 2024 survives a
16 Oct 2024 cutoff and its timestamp lies strictly after it. -/
theorem parseChat_cutoff_witness :
    (⟨1729181400000, "Priya", "Any update on PID 123456?"⟩ : Msg) ∈
      parseChat "17/10/2024, 9:40 pm - Priya: Any update on PID 123456?"
        (cutoffInstant 2024 10 16) ∧
    cutoffInstant 2024 10 16 < (1729181400000 : Int) := by
  have hmem : (⟨1729181400000, "Priya", "Any update on PID 123456?"⟩ : Msg) ∈
      parseChat "17/10/2024, 9:40 pm - Priya: Any update on PID 123456?"
        (cutoffInstant 2024 10 16) := by decide
  exact ⟨hmem, parseChat_cutoff _ 2024 10 16 _ hmem⟩

/-! ## Claim C5 — timelines are sorted and stable -/

theorem dedupFirst_aux_nodup (l : List (List Char)) (acc : List (List Char))
    (h : acc.Nodup) :
    (l.foldl (fun acc x => if x ∈ acc then acc else acc ++ [x]) acc).Nodup := by
  induction l generalizing acc with
  | nil => exact h
  | cons x xs ih =>
    rw [List.foldl_cons]
    by_cases hm : x ∈ acc
    · rw [if_pos hm]
      exact ih _ h
    · rw [if_neg hm]
      refine ih _ ?_
      rw [List.nodup_append]
      refine ⟨h, List.nodup_singleton x, fun a ha hax => ?_⟩
      rw [List.mem_singleton.mp hax] at ha
      exact hm ha

theorem extractPids_nodup (t : String) : (extractPids t).Nodup := by
  unfold extractPids
  refine List.Nodup.map (fun a b h => ?_) (dedupFirst_aux_nodup _ [] List.nodup_nil)
  exact congrArg String.data h

theorem findTl_updateAssoc (tls : List (String × List Msg)) (pid k : String) (m : Msg) :
    findTl (updateAssoc tls k m) pid =
      if pid = k then some ((findTl tls k).getD [] ++ [m]) else findTl tls pid := by
  induction tls with
  | nil =>
    by_cases h : pid = k
    · subst h
      simp [updateAssoc, findTl]
    · simp [updateAssoc, findTl, h, Ne.symm h]
  | cons hd rest ih =>
    obtain ⟨k', v'⟩ := hd
    by_cases hk : k' = k
    · subst hk
      by_cases hp : pid = k'
      · subst hp
        simp [updateAssoc, findTl]
      · simp [updateAssoc, findTl, hp, Ne.symm hp]
    · by_cases hp : pid = k'
      · have hpk : pid ≠ k := hp ▸ hk
        simp [updateAssoc, findTl, hk, hp.symm, hpk]
      · simp [updateAssoc, findTl, hk, hp, Ne.symm hp, ih]

theorem findTl_foldl_pids (pids : List String) (hnd : pids.Nodup)
    (tls : List (String × List Msg)) (m : Msg) (pid : String) :
    findTl (pids.foldl (fun t p => updateAssoc t p m) tls) pid =
      if pid ∈ pids then some ((findTl tls pid).getD [] ++ [m]) else findTl tls pid := by
  induction pids generalizing tls with
  | nil => simp
  | cons p ps ih =>
    rw [List.foldl_cons, ih hnd.of_cons]
    by_cases hps : pid ∈ ps
    · have hne : pid ≠ p := by
        rintro rfl
        exact (List.nodup_cons.mp hnd).1 hps
      rw [findTl_updateAssoc, if_neg hne]
      simp [hps]
    · rw [findTl_updateAssoc]
      by_cases hp : pid = p
      · subst hp
        simp [hps]
      · simp [hps, hp]

theorem optAppend_snoc (o : Option (List Msg)) (m : Msg) (l : List Msg) :
    optAppend (some (o.getD [] ++ [m])) l = optAppend o (m :: l) := by
  cases l <;> simp [optAppend]

theorem findTl_buildFold (msgs : List Msg) (tls : List (String × List Msg)) (pid : String) :
    findTl (msgs.foldl
      (fun t m => (extractPids m.text).foldl (fun t2 p => updateAssoc t2 p m) t) tls) pid =
      optAppend (findTl tls pid)
        (msgs.filter (fun m => decide (pid ∈ extractPids m.text))) := by
  induction msgs generalizing tls with
  | nil => simp [optAppend]
  | cons m ms ih =>
    rw [List.foldl_cons, ih]
    rw [findTl_foldl_pids _ (extractPids_nodup m.text)]
    by_cases hmem : pid ∈ extractPids m.text
    · rw [if_pos hmem, List.filter_cons, if_pos (by simpa using hmem), optAppend_snoc]
    · rw [if_neg hmem, List.filter_cons, if_neg (by simpa using hmem)]

theorem updateAssoc_keys (tls : List (String × List Msg)) (k : String) (m : Msg) :
    (updateAssoc tls k m).map Prod.fst =
      if k ∈ tls.map Prod.fst then tls.map Prod.fst else tls.map Prod.fst ++ [k] := by
  induction tls with
  | nil => simp [updateAssoc]
  | cons hd rest ih =>
    obtain ⟨k', v'⟩ := hd
    by_cases hk : k' = k
    · subst hk
      simp [updateAssoc]
    · simp only [updateAssoc, if_neg hk, List.map_cons, ih]
      by_cases hmem : k ∈ rest.map Prod.fst
      · rw [if_pos hmem, if_pos (List.mem_cons_of_mem _ hmem)]
      · rw [if_neg hmem, if_neg (by
          intro hc
          rcases List.mem_cons.mp hc with hc | hc
          · exact hk hc.symm
          · exact hmem hc)]
        simp

theorem updateAssoc_keys_nodup (tls : List (String × List Msg)) (k : String) (m : Msg)
    (h : (tls.map Prod.fst).Nodup) : ((updateAssoc tls k m).map Prod.fst).Nodup := by
  rw [updateAssoc_keys]
  by_cases hmem : k ∈ tls.map Prod.fst
  · rwa [if_pos hmem]
  · rw [if_neg hmem, List.nodup_append]
    refine ⟨h, List.nodup_singleton k, fun a ha hax => ?_⟩
    rw [List.mem_singleton.mp hax] at ha
    exact hmem ha

theorem foldl_pids_keys_nodup (pids : List String) (tls : List (String × List Msg)) (m : Msg)
    (h : (tls.map Prod.fst).Nodup) :
    ((pids.foldl (fun t p => updateAssoc t p m) tls).map Prod.fst).Nodup := by
  induction pids generalizing tls with
  | nil => exact h
  | cons p ps ih =>
    rw [List.foldl_cons]
    exact ih _ (updateAssoc_keys_nodup _ _ _ h)

theorem buildFold_keys_nodup (msgs : List Msg) (tls : List (String × List Msg))
    (h : (tls.map Prod.fst).Nodup) :
    ((msgs.foldl
      (fun t m => (extractPids m.text).foldl (fun t2 p => updateAssoc t2 p m) t) tls).map
        Prod.fst).Nodup := by
  induction msgs generalizing tls with
  | nil => exact h
  | cons m ms ih =>
    rw [List.foldl_cons]
    exact ih _ (foldl_pids_keys_nodup _ _ _ h)

theorem findTl_of_mem (tls : List (String × List Msg)) (pid : String) (arr : List Msg)
    (hnd : (tls.map Prod.fst).Nodup) (hm : (pid, arr) ∈ tls) :
    findTl tls pid = some arr := by
  induction tls with
  | nil => simp at hm
  | cons hd rest ih =>
    obtain ⟨k', v'⟩ := hd
    rcases List.mem_cons.mp hm with hm | hm
    · have h1 : pid = k' := congrArg Prod.fst hm
      have h2 : arr = v' := congrArg Prod.snd hm
      subst h1 h2
      simp [findTl]
    · have hnd' : (k' :: rest.map Prod.fst).Nodup := by simpa using hnd
      have hkeys := List.nodup_cons.mp hnd'
      have hpid : pid ∈ rest.map Prod.fst := List.mem_map.mpr ⟨(pid, arr), hm, rfl⟩
      have hne : k' ≠ pid := fun h => hkeys.1 (h ▸ hpid)
      rw [findTl, if_neg hne]
      exact ih hkeys.2 hm

theorem filter_orderedInsert (p : Msg → Bool) (a : Msg) (l : List Msg)
    (hpa : ∀ b, p a = true → p b = true → tsLe a b) :
    (List.orderedInsert tsLe a l).filter p =
      if p a then a :: l.filter p else l.filter p := by
  induction l with
  | nil => simp [List.orderedInsert, List.filter_cons]
  | cons b l ih =>
    rw [List.orderedInsert]
    by_cases hab : tsLe a b
    · rw [if_pos hab, List.filter_cons]
    · rw [if_neg hab, List.filter_cons]
      cases hpb : p b with
      | true =>
        have hpa' : p a = false := by
          cases hqa : p a with
          | false => rfl
          | true => exact absurd (hpa b hqa hpb) hab
        simp [hpb, ih, hpa', List.filter_cons]
      | false =>
        simp only [hpb, ih, List.filter_cons]
        cases hqa : p a <;> simp [hqa]

theorem filter_insertionSort (p : Msg → Bool) (l : List Msg)
    (hP : ∀ a b, p a = true → p b = true → tsLe a b) :
    (List.insertionSort tsLe l).filter p = l.filter p := by
  induction l with
  | nil => rfl
  | cons x xs ih =>
    rw [List.insertionSort, filter_orderedInsert p x _ (fun b => hP x b), ih,
      List.filter_cons]

/-- Claim C5: for every list of parsed messages, the timeline builder
produces, for each PID, a sequence sorted ascending by timestamp (any two
messages `a` before `b` satisfy `a.ts ≤ b.ts`), and messages with equal
timestamps keep their relative input (insertion) order: for every
timestamp, the sub-sequence of the timeline at that timestamp equals the
sub-sequence of the input messages mentioning that PID (stable sort). -/
theorem buildPidTimelines_sorted_stable (msgs : List Msg) (pid : String) (arr : List Msg)
    (hm : (pid, arr) ∈ buildPidTimelines msgs) :
    arr.Pairwise (fun a b => a.ts ≤ b.ts) ∧
    ∀ t : Int, arr.filter (fun m => decide (m.ts = t)) =
      (msgs.filter (fun m => decide (pid ∈ extractPids m.text))).filter
        (fun m => decide (m.ts = t)) := by
  unfold buildPidTimelines at hm
  obtain ⟨pr, hpr, heq⟩ := List.mem_map.mp hm
  obtain ⟨p0, arr0⟩ := pr
  have hpid : p0 = pid := congrArg Prod.fst heq
  have harr : arr = List.insertionSort tsLe arr0 := (congrArg Prod.snd heq).symm
  subst hpid
  have hnd := buildFold_keys_nodup msgs [] (by simp)
  have hfind := findTl_of_mem _ p0 arr0 hnd hpr
  rw [findTl_buildFold] at hfind
  have harr0 : arr0 = msgs.filter (fun m => decide (p0 ∈ extractPids m.text)) := by
    cases hfl : msgs.filter (fun m => decide (p0 ∈ extractPids m.text)) with
    | nil =>
      rw [hfl] at hfind
      exact absurd hfind (by simp [findTl, optAppend])
    | cons f fs =>
      rw [hfl] at hfind
      simp only [findTl, optAppend, Option.getD, List.nil_append] at hfind
      exact (Option.some.injEq .. ▸ hfind).symm
  constructor
  · rw [harr]
    exact List.sorted_insertionSort tsLe arr0
  · intro t
    rw [harr, filter_insertionSort _ _ (fun a b ha hb => by
      have ha' := of_decide_eq_true ha
      have hb' := of_decide_eq_true hb
      show a.ts ≤ b.ts
      omega), harr0]

/-- Witness for C5: a timeline with a timestamp tie keeps the two tied
messages in input order, after the later-timestamped input message is
sorted behind them. -/
theorem buildPidTimelines_sorted_stable_witness :
    ([⟨3, "b", "x 123456"⟩, ⟨3, "c", "123456 z"⟩, ⟨5, "a", "123456"⟩] : List Msg).Pairwise
      (fun a b => a.ts ≤ b.ts) ∧
    ([⟨3, "b", "x 123456"⟩, ⟨3, "c", "123456 z"⟩, ⟨5, "a", "123456"⟩] : List Msg).filter
        (fun m => decide (m.ts = 3)) =
      (([⟨5, "a", "123456"⟩, ⟨3, "b", "x 123456"⟩, ⟨3, "c", "123456 z"⟩] : List Msg).filter
        (fun m => decide ("123456" ∈ extractPids m.text))).filter
        (fun m => decide (m.ts = 3)) := by
  have h := buildPidTimelines_sorted_stable
    [⟨5, "a", "123456"⟩, ⟨3, "b", "x 123456"⟩, ⟨3, "c", "123456 z"⟩] "123456"
    [⟨3, "b", "x 123456"⟩, ⟨3, "c", "123456 z"⟩, ⟨5, "a", "123456"⟩] (by decide)
  exact ⟨h.1, h.2 3⟩

/-! ## Claim C6 — CSV round-trip (corrected) -/

theorem data_append (a b : String) : (a ++ b).data = a.data ++ b.data := by
  cases a
  cases b
  rfl

theorem csvLoop_plain (f : List Char) (rest : List Char)
    (field : List Char) (row : List (List Char)) (rows : List (List (List Char)))
    (hf : ∀ c ∈ f, c ≠ '"' ∧ c ≠ ',' ∧ c ≠ '\r' ∧ c ≠ '\n') :
    csvLoop (f ++ rest) field row rows false = csvLoop rest (field ++ f) row rows false := by
  induction f generalizing field with
  | nil => simp
  | cons c f' ih =>
    obtain ⟨h1, h2, h3, h4⟩ := hf c (List.mem_cons_self c f')
    have hstep : csvLoop (c :: (f' ++ rest)) field row rows false =
        csvLoop (f' ++ rest) (field ++ [c]) row rows false := by
      rw [csvLoop.eq_def]
      split <;> simp_all
    rw [List.cons_append, hstep, ih _ (fun c hc => hf c (List.mem_cons_of_mem _ hc))]
    simp

theorem csvLoop_quote_close (c2 : Char) (r2 : List Char)
    (field : List Char) (row : List (List Char)) (rows : List (List (List Char)))
    (hc2 : c2 ≠ '"') :
    csvLoop ('"' :: c2 :: r2) field row rows true = csvLoop (c2 :: r2) field row rows false := by
  rw [csvLoop.eq_def]
  split
  case h_4 =>
    rename_i hne heq htriv
    injection heq with h1 h2
    exact absurd h1.symm hne
  all_goals simp_all

theorem csvLoop_inq_char (c : Char) (rest : List Char)
    (field : List Char) (row : List (List Char)) (rows : List (List (List Char)))
    (hc : c ≠ '"') :
    csvLoop (c :: rest) field row rows true = csvLoop rest (field ++ [c]) row rows true := by
  rw [csvLoop.eq_def]
  split <;> first
    | rfl
    | simp_all

theorem csvLoop_quote_open (rest : List Char)
    (field : List Char) (row : List (List Char)) (rows : List (List (List Char))) :
    csvLoop ('"' :: rest) field row rows false = csvLoop rest field row rows true := by
  rw [csvLoop.eq_def]
  split
  case h_9 =>
    rename_i hq hcm hcr hnl heq htriv
    injection heq with h1 h2
    exact absurd h1.symm hq
  all_goals first
    | rfl
    | simp_all

theorem csvLoop_quoted (f : List Char) (rest : List Char)
    (field : List Char) (row : List (List Char)) (rows : List (List (List Char)))
    (hrest : rest.head? ≠ some '"') :
    csvLoop (dupQuotes f ++ '"' :: rest) field row rows true =
      csvLoop rest (field ++ f) row rows false := by
  induction f generalizing field with
  | nil =>
    cases rest with
    | nil => simp [dupQuotes, csvLoop]
    | cons c2 r2 =>
      have hc2 : c2 ≠ '"' := by simpa using hrest
      rw [show dupQuotes [] ++ '"' :: c2 :: r2 = '"' :: c2 :: r2 from rfl,
        csvLoop_quote_close _ _ _ _ _ hc2]
      simp
  | cons c f' ih =>
    by_cases hc : c = '"'
    · subst hc
      rw [show dupQuotes ('"' :: f') ++ '"' :: rest =
        '"' :: '"' :: (dupQuotes f' ++ '"' :: rest) from by simp [dupQuotes]]
      rw [show csvLoop ('"' :: '"' :: (dupQuotes f' ++ '"' :: rest)) field row rows true =
        csvLoop (dupQuotes f' ++ '"' :: rest) (field ++ ['"']) row rows true from rfl]
      rw [ih]
      simp
    · rw [show dupQuotes (c :: f') ++ '"' :: rest =
        c :: (dupQuotes f' ++ '"' :: rest) from by simp [dupQuotes, hc]]
      rw [csvLoop_inq_char _ _ _ _ _ hc, ih]
      simp

theorem csvLoop_field (f : String) (rest : List Char)
    (field : List Char) (row : List (List Char)) (rows : List (List (List Char)))
    (hCR : '\r' ∉ f.data) (hrest : rest.head? ≠ some '"') :
    csvLoop ((escCsv f).data ++ rest) field row rows false =
      csvLoop rest (field ++ f.data) row rows false := by
  unfold escCsv
  by_cases hq : f.data.any (fun c => c = '"' || c = ',' || c = '\n')
  · rw [if_pos hq, data_append, data_append]
    rw [show ("\"" : String).data = ['"'] from rfl,
      show (String.mk (dupQuotes f.data)).data = dupQuotes f.data from rfl]
    rw [List.append_assoc]
    simp only [List.singleton_append]
    rw [List.cons_append, csvLoop_quote_open, csvLoop_quoted _ _ _ _ _ hrest]
  · rw [if_neg hq]
    apply csvLoop_plain
    intro c hc
    have hnot := fun h => hq (List.any_eq_true.mpr ⟨c, hc, h⟩)
    refine ⟨?_, ?_, ?_, ?_⟩
    · intro h; exact hnot (by simp [h])
    · intro h; exact hnot (by simp [h])
    · intro h; exact hCR (h ▸ hc)
    · intro h; exact hnot (by simp [h])



theorem csvLoop_comma (rest : List Char)
    (field : List Char) (row : List (List Char)) (rows : List (List (List Char))) :
    csvLoop (',' :: rest) field row rows false = csvLoop rest [] (row ++ [field]) rows false := rfl

theorem csvLoop_newline (rest : List Char)
    (field : List Char) (row : List (List Char)) (rows : List (List (List Char))) :
    csvLoop ('\n' :: rest) field row rows false =
      csvLoop rest [] [] (rows ++ [row ++ [field]]) false := rfl

theorem joinSep_cons2 (sep : String) (x y : String) (r : List String) :
    joinSep sep (x :: y :: r) = x ++ sep ++ joinSep sep (y :: r) := rfl

theorem csvLoop_row_nl (f : String) (fs : List String)
    (hCR : ∀ g ∈ f :: fs, '\r' ∉ g.data) (rest : List Char)
    (row : List (List Char)) (rows : List (List (List Char))) :
    csvLoop ((joinSep "," ((f :: fs).map escCsv)).data ++ '\n' :: rest) [] row rows false =
      csvLoop rest [] [] (rows ++ [row ++ (f :: fs).map String.data]) false := by
  induction fs generalizing f row with
  | nil =>
    rw [show (f :: []).map escCsv = [escCsv f] from rfl,
      show joinSep "," [escCsv f] = escCsv f from rfl]
    rw [csvLoop_field f _ _ _ _ (hCR f (by simp)) (by simp), List.nil_append,
      csvLoop_newline]
    simp
  | cons f2 fs' ih =>
    rw [List.map_cons, List.map_cons, joinSep_cons2, data_append, data_append,
      List.append_assoc, List.append_assoc]
    rw [csvLoop_field f _ _ _ _ (hCR f (by simp)) (by simp [show (("," : String)).data = [','] from rfl])]
    rw [show (("," : String)).data = [','] from rfl]
    rw [List.nil_append, List.singleton_append, csvLoop_comma, ← List.map_cons escCsv f2 fs']
    rw [ih f2 (fun g hg => hCR g (List.mem_cons_of_mem _ hg))]
    simp

theorem csvLoop_row_end (f : String) (fs : List String)
    (hCR : ∀ g ∈ f :: fs, '\r' ∉ g.data)
    (row : List (List Char)) (rows : List (List (List Char)))
    (hrow : row ≠ [] ∨ fs ≠ []) :
    csvLoop ((joinSep "," ((f :: fs).map escCsv)).data) [] row rows false =
      rows ++ [row ++ (f :: fs).map String.data] := by
  induction fs generalizing f row with
  | nil =>
    have hr : row ≠ [] := by
      rcases hrow with h | h
      · exact h
      · exact absurd rfl h
    rw [show (f :: []).map escCsv = [escCsv f] from rfl,
      show joinSep "," [escCsv f] = escCsv f from rfl]
    rw [show (escCsv f).data = (escCsv f).data ++ [] from (List.append_nil _).symm]
    rw [csvLoop_field f _ _ _ _ (hCR f (by simp)) (by simp), List.nil_append]
    rw [show csvLoop [] f.data row rows false =
      if f.data.isEmpty && row.isEmpty then rows else rows ++ [row ++ [f.data]] from rfl]
    rw [show row.isEmpty = false from by
      cases row with
      | nil => exact absurd rfl hr
      | cons a b => rfl]
    simp
  | cons f2 fs' ih =>
    rw [List.map_cons, List.map_cons, joinSep_cons2, data_append, data_append,
      List.append_assoc]
    rw [csvLoop_field f _ _ _ _ (hCR f (by simp)) (by simp [show (("," : String)).data = [','] from rfl])]
    rw [show (("," : String)).data = [','] from rfl]
    rw [List.nil_append, List.singleton_append, csvLoop_comma, ← List.map_cons escCsv f2 fs']
    rw [ih f2 (fun g hg => hCR g (List.mem_cons_of_mem _ hg)) _ (Or.inl (by simp))]
    simp



theorem map_mk_data (fs : List String) :
    (fs.map String.data).map (fun f => String.mk f) = fs := by
  induction fs with
  | nil => rfl
  | cons f fs ih =>
    rw [List.map_cons, List.map_cons, ih]

theorem csvLoop_lines (ls : List (List String))
    (h2 : ∀ fs ∈ ls, 2 ≤ fs.length)
    (hCR : ∀ fs ∈ ls, ∀ f ∈ fs, '\r' ∉ f.data)
    (rows : List (List (List Char))) :
    csvLoop ((joinSep "\n" (ls.map (fun fs => joinSep "," (fs.map escCsv)))).data)
        [] [] rows false =
      rows ++ ls.map (fun fs => fs.map String.data) := by
  induction ls generalizing rows with
  | nil => simp [joinSep, csvLoop]
  | cons fs ls' ih =>
    obtain ⟨f, fs0, rfl⟩ : ∃ f fs0, fs = f :: fs0 := by
      cases fs with
      | nil => exact absurd (h2 [] (by simp)) (by simp)
      | cons f fs0 => exact ⟨f, fs0, rfl⟩
    cases ls' with
    | nil =>
      rw [List.map_cons, List.map_nil,
        show joinSep "\n" [joinSep "," ((f :: fs0).map escCsv)] =
          joinSep "," ((f :: fs0).map escCsv) from rfl]
      rw [csvLoop_row_end f fs0 (hCR _ (by simp)) [] rows
        (Or.inr (by
          have := h2 (f :: fs0) (by simp)
          cases fs0 with
          | nil => simp at this
          | cons a b => simp))]
      simp
    | cons fs2 ls'' =>
      rw [List.map_cons, List.map_cons (fun fs => joinSep "," (List.map escCsv fs)) fs2 ls'',
        joinSep_cons2, data_append, data_append,
        show (("\n" : String)).data = ['\n'] from rfl, List.append_assoc,
        List.singleton_append]
      rw [csvLoop_row_nl f fs0 (hCR _ (by simp)) _ [] rows]
      rw [← List.map_cons (fun fs => joinSep "," (List.map escCsv fs)) fs2 ls'']
      rw [ih (fun gs hgs => h2 gs (List.mem_cons_of_mem _ hgs))
        (fun gs hgs => hCR gs (List.mem_cons_of_mem _ hgs))]
      simp

/-- Claim C6 (amended): for every row set whose field values contain no
carriage-return characters, rendering it to delimited text (wrapping any
field containing a comma, double-quote, or newline in double quotes with
internal quotes doubled) and re-parsing that text with the RFC4180-style
quoting rules recovers exactly the original field values, including fields
containing commas, quotes, or newlines. -/
theorem csv_roundtrip (rows : List RowB)
    (hCR : ∀ r ∈ rows, ∀ f ∈ rowFieldsB r, '\r' ∉ f.data) :
    parseCsvRobust (toCsv rows) = headersB :: rows.map rowFieldsB := by
  unfold parseCsvRobust toCsv
  rw [show joinSep "," headersB = joinSep "," (headersB.map escCsv) from rfl]
  rw [show (joinSep "," (headersB.map escCsv) ::
      rows.map (fun r => joinSep "," ((rowFieldsB r).map escCsv))) =
    (headersB :: rows.map rowFieldsB).map (fun fs => joinSep "," (fs.map escCsv)) from by
      rw [List.map_cons, List.map_map]
      rfl]
  rw [csvLoop_lines (headersB :: rows.map rowFieldsB)
    (by
      intro fs hfs
      rcases List.mem_cons.mp hfs with h | h
      · rw [h, headersB]
        simp
      · obtain ⟨r, _, rfl⟩ := List.mem_map.mp h
        rw [rowFieldsB]
        simp)
    (by
      intro fs hfs
      rcases List.mem_cons.mp hfs with h | h
      · rw [h]
        decide
      · obtain ⟨r, hr, rfl⟩ := List.mem_map.mp h
        exact hCR r hr)
    []]
  rw [List.nil_append]
  have hfin : ∀ (ls : List (List String)),
      (ls.map (fun fs => fs.map String.data)).map (fun row => row.map (fun f => String.mk f)) =
        ls := by
    intro ls
    induction ls with
    | nil => rfl
    | cons fs ls ih => rw [List.map_cons, List.map_cons, map_mk_data, ih]
  exact hfin _



/-- Witness for C6: a row with an embedded quote, comma and newline
round-trips exactly. -/
theorem csv_roundtrip_witness :
    parseCsvRobust (toCsv [⟨"123456", "d\"x", "m,1", "Open", "", "line1\nline2", "", "", "", ""⟩]) =
      headersB :: [(⟨"123456", "d\"x", "m,1", "Open", "", "line1\nline2", "", "", "", ""⟩ : RowB)].map rowFieldsB :=
  csv_roundtrip _ (by decide)

/-- Counterexample for C6 as stated: a field containing a bare carriage
return is not quoted by `escCsv`, and the parser silently drops the CR, so
the round trip loses it. -/
theorem csv_roundtrip_claim_counterexample :
    parseCsvRobust (toCsv [⟨"a\rb", "", "", "", "", "", "", "", "", ""⟩]) ≠
      headersB :: [(⟨"a\rb", "", "", "", "", "", "", "", "", ""⟩ : RowB)].map rowFieldsB := by
  decide

end AzaQueries

namespace AzaQueries

theorem digit_isWordChar {c : Char} (h : c.isDigit = true) : isWordChar c = true := by
  simp [isWordChar, h]

theorem digit_not_space {c : Char} (h : c.isDigit = true) : jsIsSpace c = false := by
  cases hs : jsIsSpace c
  · rfl
  · exfalso
    simp only [jsIsSpace, Bool.or_eq_true, decide_eq_true_eq] at hs
    rcases hs with ((((h1 | h1) | h1) | h1) | h1) | h1 <;> subst h1 <;>
      simp [Char.isDigit] at h

theorem digit_not_sep {c : Char} (h : c.isDigit = true) : c ≠ ':' ∧ c ≠ '-' := by
  constructor <;> rintro rfl <;> simp [Char.isDigit] at h

theorem digit_not_pid {c : Char} (h : c.isDigit = true) : c ≠ 'p' ∧ c ≠ 'P' := by
  constructor <;> rintro rfl <;> simp [Char.isDigit] at h

theorem space_not_digit {c : Char} (h : jsIsSpace c = true) : c.isDigit = false := by
  cases hd : c.isDigit
  · rfl
  · rw [digit_not_space hd] at h
    exact absurd h (by simp)

theorem sep_not_digit {c : Char} (h : c = ':' ∨ c = '-') : c.isDigit = false := by
  rcases h with rfl | rfl <;> decide

theorem pid_char_not_digit {c : Char} (h : c = 'p' ∨ c = 'P') : c.isDigit = false := by
  rcases h with rfl | rfl <;> decide

end AzaQueries

namespace AzaQueries

theorem wordAt_some {s : List Char} {i : Nat} {c : Char} (h : s.get? i = some c) :
    wordAt s i = isWordChar c := by
  rw [List.get?_eq_getElem?] at h
  simp [wordAt, charAt, h]

theorem wordAt_none {s : List Char} {i : Nat} (h : s.get? i = none) :
    wordAt s i = false := by
  rw [List.get?_eq_getElem?] at h
  simp [wordAt, charAt, h]

theorem sixDigitsAt_length {s : List Char} {d : Nat} (h : sixDigitsAt s d = true) :
    d + 6 ≤ s.length := by
  simp only [sixDigitsAt, Bool.and_eq_true, beq_iff_eq] at h
  have h1 := h.1
  rw [List.length_take, List.length_drop] at h1
  omega

theorem sixDigitsAt_digit {s : List Char} {d : Nat} (h : sixDigitsAt s d = true) :
    ∀ p, d ≤ p → p < d + 6 → ∃ c, s.get? p = some c ∧ c.isDigit = true := by
  intro p hp1 hp2
  simp only [sixDigitsAt, Bool.and_eq_true, beq_iff_eq, List.all_eq_true] at h
  obtain ⟨hlen, hall⟩ := h
  have hlt : p - d < ((s.drop d).take 6).length := by rw [hlen]; omega
  set w := (s.drop d).take 6 with hw
  have hg : w.get? (p - d) = some (w.get ⟨p - d, hlt⟩) := List.get?_eq_some.mpr ⟨hlt, rfl⟩
  have hgs : s.get? p = some (w.get ⟨p - d, hlt⟩) := by
    rw [← hg, hw, List.get?_take (by omega : p - d < 6), List.get?_drop]
    congr 1
    omega
  exact ⟨w.get ⟨p - d, hlt⟩, hgs, hall _ (List.get?_mem hg)⟩

theorem sixDigitsAt_false_head {s : List Char} {d : Nat} {c : Char}
    (hc : s.get? d = some c) (hd : c.isDigit = false) : sixDigitsAt s d = false := by
  cases h : sixDigitsAt s d
  · rfl
  · obtain ⟨c', hc', hd'⟩ := sixDigitsAt_digit h d (le_refl d) (by omega)
    rw [hc] at hc'
    cases hc'
    rw [hd'] at hd
    exact absurd hd (by simp)

theorem sixDigitsAt_false_none {s : List Char} {d : Nat}
    (hc : s.get? d = none) : sixDigitsAt s d = false := by
  cases h : sixDigitsAt s d
  · rfl
  · obtain ⟨c', hc', _⟩ := sixDigitsAt_digit h d (le_refl d) (by omega)
    rw [hc] at hc'
    exact absurd hc' (by simp)

/-- Inside a matched run, no position other than the start can begin a
six-digit word-bounded run: indices `d < p < d+6` would need a digit at
`d+6`, which the right boundary of the run excludes. -/
theorem sixDigitsAt_false_inside {s : List Char} {d p : Nat}
    (hd : sixDigitsAt s d = true) (hb : boundaryAt s (d + 6) = true)
    (hp1 : d < p) (hp2 : p < d + 6) : sixDigitsAt s p = false := by
  have hlen := sixDigitsAt_length hd
  obtain ⟨c5, hc5, hd5⟩ := sixDigitsAt_digit hd (d + 5) (by omega) (by omega)
  have hw5 : wordAt s (d + 5) = true := by rw [wordAt_some hc5]; exact digit_isWordChar hd5
  have hw6 : wordAt s (d + 6) = false := by
    simp only [boundaryAt, bne_iff_ne, ne_eq] at hb
    rw [if_neg (by omega : ¬ d + 6 = 0)] at hb
    have : d + 6 - 1 = d + 5 := by omega
    rw [this, hw5] at hb
    cases hval : wordAt s (d + 6)
    · rfl
    · rw [hval] at hb
      exact absurd rfl hb
  cases h : sixDigitsAt s p
  · rfl
  · exfalso
    obtain ⟨c6, hc6, hd6⟩ := sixDigitsAt_digit h (d + 6) (by omega) (by omega)
    rw [wordAt_some hc6, digit_isWordChar hd6] at hw6
    exact absurd hw6 (by simp)

end AzaQueries

namespace AzaQueries

theorem takeWhile_get?_some {p : Char → Bool} :
    ∀ (l : List Char) (n : Nat) (c : Char),
      (l.takeWhile p).get? n = some c → l.get? n = some c ∧ p c = true := by
  intro l
  induction l with
  | nil => intro n c h; simp at h
  | cons a t ih =>
    intro n c h
    rw [List.takeWhile_cons] at h
    cases hpa : p a with
    | false => rw [hpa] at h; simp at h
    | true =>
      rw [hpa] at h
      cases n with
      | zero =>
        simp only [List.get?] at h ⊢
        cases h
        exact ⟨rfl, hpa⟩
      | succ n =>
        simp only [List.get?] at h ⊢
        exact ih n c h

theorem dropWhile_head_false {p : Char → Bool} :
    ∀ (l : List Char) (c : Char) (t : List Char), l.dropWhile p = c :: t → p c = false := by
  intro l
  induction l with
  | nil => intro c t h; simp at h
  | cons a l' ih =>
    intro c t h
    rw [List.dropWhile_cons] at h
    cases hpa : p a with
    | false =>
      rw [hpa] at h
      simp at h
      rw [← h.1]
      exact hpa
    | true =>
      rw [hpa] at h
      simp at h
      exact ih c t h

theorem takeWhile_length_eq {p : Char → Bool} :
    ∀ (k : Nat) (l : List Char),
      (∀ n, n < k → ∃ c, l.get? n = some c ∧ p c = true) →
      (∀ c, l.get? k = some c → p c = false) →
      (l.takeWhile p).length = k := by
  intro k
  induction k with
  | zero =>
    intro l hsp hstop
    cases l with
    | nil => rfl
    | cons a t =>
      rw [List.takeWhile_cons, hstop a rfl]
      rfl
  | succ k ih =>
    intro l hsp hstop
    obtain ⟨c, hc, hpc⟩ := hsp 0 (by omega)
    cases l with
    | nil => simp at hc
    | cons a t =>
      simp only [List.get?] at hc
      cases hc
      rw [List.takeWhile_cons, hpc]
      simp only [if_true, List.length_cons]
      rw [ih t (fun n hn => hsp (n + 1) (by omega)) (fun c hc => hstop c hc)]

theorem skipSpaces_ge (s : List Char) (i : Nat) : i ≤ skipSpaces s i :=
  Nat.le_add_right i _

theorem skipSpaces_spaces {s : List Char} {i p : Nat} (h1 : i ≤ p)
    (h2 : p < skipSpaces s i) : ∃ c, s.get? p = some c ∧ jsIsSpace c = true := by
  unfold skipSpaces at h2
  set tw := (s.drop i).takeWhile jsIsSpace with htw
  have hlt : p - i < tw.length := by omega
  have hg : tw.get? (p - i) = some (tw.get ⟨p - i, hlt⟩) := List.get?_eq_some.mpr ⟨hlt, rfl⟩
  obtain ⟨hget, hsp⟩ := takeWhile_get?_some _ _ _ hg
  rw [List.get?_drop] at hget
  refine ⟨tw.get ⟨p - i, hlt⟩, ?_, hsp⟩
  rw [show i + (p - i) = p by omega] at hget
  exact hget

theorem skipSpaces_stop {s : List Char} {i : Nat} {c : Char}
    (h : s.get? (skipSpaces s i) = some c) : jsIsSpace c = false := by
  unfold skipSpaces at h
  set tw := (s.drop i).takeWhile jsIsSpace with htw
  set dw := (s.drop i).dropWhile jsIsSpace with hdw
  have hsplit : s.drop i = tw ++ dw := (List.takeWhile_append_dropWhile _ _).symm
  have : s.get? (i + tw.length) = dw.get? 0 := by
    rw [← List.get?_drop, hsplit, List.get?_append_right (le_refl _)]
    simp
  rw [this] at h
  cases hd : dw with
  | nil => rw [hd] at h; simp at h
  | cons c0 t =>
    rw [hd] at h
    simp only [List.get?] at h
    cases h
    exact dropWhile_head_false _ _ _ hd

theorem skipSpaces_eq {s : List Char} {i j : Nat} (hij : i ≤ j)
    (hsp : ∀ p, i ≤ p → p < j → ∃ c, s.get? p = some c ∧ jsIsSpace c = true)
    (hstop : ∀ c, s.get? j = some c → jsIsSpace c = false) :
    skipSpaces s i = j := by
  unfold skipSpaces
  rw [takeWhile_length_eq (j - i) (s.drop i)
    (fun n hn => by
      obtain ⟨c, hc, hpc⟩ := hsp (i + n) (by omega) (by omega)
      exact ⟨c, by rw [List.get?_drop]; exact hc, hpc⟩)
    (fun c hc => by
      rw [List.get?_drop] at hc
      exact hstop c (by rw [show i + (j - i) = j by omega] at hc; exact hc))]
  omega

end AzaQueries

namespace AzaQueries

theorem sep_not_space {c : Char} (h : c = ':' ∨ c = '-') : jsIsSpace c = false := by
  rcases h with rfl | rfl <;> decide

theorem slice_get? {s : List Char} {a b n : Nat} (h : n < b - a) :
    (sliceCh s a b).get? n = s.get? (a + n) := by
  unfold sliceCh
  rw [List.get?_take h, List.get?_drop]

theorem slice_length {s : List Char} {a b : Nat} (hb : b ≤ s.length) (hab : a ≤ b) :
    (sliceCh s a b).length = b - a := by
  unfold sliceCh
  rw [List.length_take, List.length_drop]
  omega

theorem slice_split {s : List Char} {a m b : Nat} (h1 : a ≤ m) (h2 : m < b) {c : Char}
    (hc : s.get? m = some c) :
    sliceCh s a b = sliceCh s a m ++ c :: sliceCh s (m + 1) b := by
  have hmlen : m < s.length := by
    obtain ⟨h, -⟩ := List.get?_eq_some.mp hc
    exact h
  have hdropa : s.drop a = sliceCh s a m ++ c :: s.drop (m + 1) := by
    have hsplit : (s.drop a).take (m - a) ++ (s.drop a).drop (m - a) = s.drop a :=
      List.take_append_drop _ _
    have hdd : (s.drop a).drop (m - a) = s.drop m := by
      rw [List.drop_drop]
      congr 1
      omega
    have hdm : s.drop m = c :: s.drop (m + 1) := by
      have := List.drop_eq_get_cons (l := s) (n := m) hmlen
      rw [this]
      congr 1
      have := List.get?_eq_some.mp hc
      obtain ⟨hlt, hget⟩ := this
      exact hget
    rw [← hsplit, hdd, hdm]
    rfl
  have hw1len : (sliceCh s a m).length = m - a := by
    unfold sliceCh
    rw [List.length_take, List.length_drop]
    omega
  unfold sliceCh
  conv_lhs => rw [hdropa]
  rw [show b - a = (sliceCh s a m).length + (b - m) from by rw [hw1len]; omega]
  rw [List.take_append]
  congr 1
  rw [show b - m = (b - (m + 1)) + 1 from by omega]
  rfl

theorem all_space_sepSpaces {w : List Char} (h : w.all jsIsSpace = true) :
    sepSpacesOnly w = true := by
  simp only [sepSpacesOnly, Bool.and_eq_true, List.all_eq_true, decide_eq_true_eq]
  rw [List.all_eq_true] at h
  constructor
  · intro c hc
    simp [h c hc]
  · have hnil : w.filter (fun c => !jsIsSpace c) = [] :=
      List.filter_eq_nil.mpr (fun c hc => by simp [h c hc])
    simp [hnil]

theorem sepSpaces_build {w1 w2 : List Char} {c : Char} (h1 : w1.all jsIsSpace = true)
    (h2 : w2.all jsIsSpace = true) (hc : c = ':' ∨ c = '-') :
    sepSpacesOnly (w1 ++ c :: w2) = true := by
  rw [List.all_eq_true] at h1 h2
  simp only [sepSpacesOnly, Bool.and_eq_true, List.all_eq_true, decide_eq_true_eq]
  constructor
  · intro x hx
    rcases List.mem_append.mp hx with hx | hx
    · simp [h1 x hx]
    · rcases List.mem_cons.mp hx with rfl | hx
      · rcases hc with rfl | rfl <;> simp
      · simp [h2 x hx]
  · rw [List.filter_append, List.filter_cons]
    have hf1 : w1.filter (fun c => !jsIsSpace c) = [] :=
      List.filter_eq_nil.mpr (fun x hx => by simp [h1 x hx])
    have hf2 : w2.filter (fun c => !jsIsSpace c) = [] :=
      List.filter_eq_nil.mpr (fun x hx => by simp [h2 x hx])
    rw [hf1, hf2, if_pos (by simp [sep_not_space hc])]
    simp

theorem sepSpaces_decomp {w : List Char} (h : sepSpacesOnly w = true) :
    w.all jsIsSpace = true ∨
    ∃ w1 c w2, w = w1 ++ c :: w2 ∧ w1.all jsIsSpace = true ∧ w2.all jsIsSpace = true ∧
      (c = ':' ∨ c = '-') := by
  induction w with
  | nil => exact Or.inl rfl
  | cons c t ih =>
    simp only [sepSpacesOnly, Bool.and_eq_true, List.all_eq_true, decide_eq_true_eq] at h
    obtain ⟨hall, hcount⟩ := h
    cases hsp : jsIsSpace c with
    | true =>
      have htail : sepSpacesOnly t = true := by
        simp only [sepSpacesOnly, Bool.and_eq_true, List.all_eq_true, decide_eq_true_eq]
        refine ⟨fun x hx => hall x (List.mem_cons_of_mem _ hx), ?_⟩
        rw [List.filter_cons] at hcount
        rw [if_neg (by simp [hsp])] at hcount
        exact hcount
      rcases ih htail with ht | ⟨w1, c', w2, heq, hw1, hw2, hc'⟩
      · left
        rw [List.all_cons, hsp, ht]
        rfl
      · right
        refine ⟨c :: w1, c', w2, by rw [heq, List.cons_append], ?_, hw2, hc'⟩
        rw [List.all_cons, hsp, hw1]
        rfl
    | false =>
      have hsep : c = ':' ∨ c = '-' := by
        have h1 := hall c (List.mem_cons_self _ _)
        simp only [Bool.or_eq_true, decide_eq_true_eq] at h1
        rcases h1 with (h1 | h1) | h1
        · rw [hsp] at h1
          exact absurd h1 (by simp)
        · exact Or.inl h1
        · exact Or.inr h1
      have hft : t.filter (fun c => !jsIsSpace c) = [] := by
        rw [List.filter_cons, if_pos (by simp [hsp])] at hcount
        simp only [List.length_cons] at hcount
        have : (t.filter (fun c => !jsIsSpace c)).length = 0 := by omega
        exact List.length_eq_zero.mp this
      have hts : t.all jsIsSpace = true := by
        rw [List.all_eq_true]
        intro x hx
        cases hxs : jsIsSpace x with
        | true => rfl
        | false =>
          have : x ∈ t.filter (fun c => !jsIsSpace c) :=
            List.mem_filter.mpr ⟨hx, by simp [hxs]⟩
          rw [hft] at this
          exact absurd this (by simp)
      exact Or.inr ⟨[], c, t, rfl, rfl, hts, hsep⟩

end AzaQueries

namespace AzaQueries

theorem charCIAt_some {s : List Char} {j : Nat} {lo hi : Char}
    (h : charCIAt s j lo hi = true) :
    ∃ x, s.get? j = some x ∧ (x = lo ∨ x = hi) := by
  unfold charCIAt at h
  rw [show charAt s j = s.get? j from rfl] at h
  cases hx : s.get? j with
  | none =>
    rw [hx] at h
    simp at h
  | some x =>
    rw [hx] at h
    simp only [Bool.or_eq_true, decide_eq_true_eq] at h
    exact ⟨x, rfl, h⟩

theorem sepAt_some {s : List Char} {j : Nat} (h : sepAt s j = true) :
    ∃ x, s.get? j = some x ∧ (x = ':' ∨ x = '-') := by
  unfold sepAt at h
  rw [show charAt s j = s.get? j from rfl] at h
  cases hx : s.get? j with
  | none =>
    rw [hx] at h
    simp at h
  | some x =>
    rw [hx] at h
    simp only [Bool.or_eq_true, decide_eq_true_eq] at h
    exact ⟨x, rfl, h⟩

theorem sepAt_false_of_digit {s : List Char} {j : Nat} {c : Char}
    (hc : s.get? j = some c) (hd : c.isDigit = true) : sepAt s j = false := by
  cases h : sepAt s j
  · rfl
  · obtain ⟨x, hx, hsep⟩ := sepAt_some h
    rw [hc] at hx
    cases hx
    rw [sep_not_digit hsep] at hd
    exact absurd hd (by simp)

theorem pidLabelAt_not_digit {s : List Char} {j : Nat} (h : pidLabelAt s j = true) :
    ∀ p c, j ≤ p → p < j + 3 → s.get? p = some c → c.isDigit = false := by
  simp only [pidLabelAt, Bool.and_eq_true] at h
  obtain ⟨⟨h1, h2⟩, h3⟩ := h
  intro p c hp1 hp2 hc
  obtain ⟨x1, hx1, ho1⟩ := charCIAt_some h1
  obtain ⟨x2, hx2, ho2⟩ := charCIAt_some h2
  obtain ⟨x3, hx3, ho3⟩ := charCIAt_some h3
  have hp : p = j ∨ p = j + 1 ∨ p = j + 2 := by omega
  rcases hp with rfl | rfl | rfl
  · rw [hc] at hx1
    cases hx1
    rcases ho1 with rfl | rfl <;> decide
  · rw [hc] at hx2
    cases hx2
    rcases ho2 with rfl | rfl <;> decide
  · rw [hc] at hx3
    cases hx3
    rcases ho3 with rfl | rfl <;> decide

theorem slice_all_of {P : Char → Bool} {s : List Char} {a b : Nat}
    (h : ∀ p c, a ≤ p → p < b → s.get? p = some c → P c = true) :
    (sliceCh s a b).all P = true := by
  rw [List.all_eq_true]
  intro x hx
  obtain ⟨n, hn⟩ := List.get?_of_mem hx
  have hlt : n < (sliceCh s a b).length := (List.get?_eq_some.mp hn).1
  have hlt2 : n < b - a := by
    have : (sliceCh s a b).length ≤ b - a := by
      unfold sliceCh
      rw [List.length_take]
      omega
    omega
  rw [slice_get? hlt2] at hn
  exact h (a + n) x (by omega) (by omega) hn

theorem skipSpaces_idem (s : List Char) (i : Nat) :
    skipSpaces s (skipSpaces s i) = skipSpaces s i := by
  apply skipSpaces_eq (le_refl _)
  · intro p hp1 hp2
    omega
  · intro c hc
    exact skipSpaces_stop hc

end AzaQueries

namespace AzaQueries

theorem labelEnd_sound {s : List Char} {i k : Nat} (h : labelEnd s i = some k) :
    pidLabelAt s i = true ∧ i + 3 ≤ k ∧ sepSpacesOnly (sliceCh s (i + 3) k) = true ∧
    (∀ p c, i ≤ p → p < k → s.get? p = some c → c.isDigit = false) := by
  unfold labelEnd at h
  by_cases hpid : pidLabelAt s i = true
  swap
  · rw [if_neg hpid] at h
    exact absurd h (by simp)
  rw [if_pos hpid] at h
  simp only [Option.some.injEq] at h
  set a := skipSpaces s (i + 3) with ha
  have hia : i + 3 ≤ a := skipSpaces_ge _ _
  by_cases hsep : sepAt s a = true
  · rw [if_pos hsep] at h
    obtain ⟨csep, hcs, hcsep⟩ := sepAt_some hsep
    have hak : a + 1 ≤ skipSpaces s (a + 1) := skipSpaces_ge _ _
    subst h
    refine ⟨hpid, by omega, ?_, ?_⟩
    · rw [slice_split (by omega) (by omega) hcs]
      apply sepSpaces_build
      · apply slice_all_of
        intro p c hp1 hp2 hc
        obtain ⟨c', hc', hsp'⟩ := skipSpaces_spaces hp1 (by rw [← ha]; omega)
        rw [hc] at hc'
        cases hc'
        exact hsp'
      · apply slice_all_of
        intro p c hp1 hp2 hc
        obtain ⟨c', hc', hsp'⟩ := skipSpaces_spaces hp1 hp2
        rw [hc] at hc'
        cases hc'
        exact hsp'
      · exact hcsep
    · intro p c hp1 hp2 hc
      by_cases hc1 : p < i + 3
      · exact pidLabelAt_not_digit hpid p c hp1 (by omega) hc
      · by_cases hc2 : p < a
        · obtain ⟨c', hc', hsp'⟩ := skipSpaces_spaces (by omega : i + 3 ≤ p)
            (by rw [← ha]; omega)
          rw [hc] at hc'
          cases hc'
          exact space_not_digit hsp'
        · by_cases hc3 : p = a
          · subst hc3
            rw [hc] at hcs
            cases hcs
            exact sep_not_digit hcsep
          · obtain ⟨c', hc', hsp'⟩ := skipSpaces_spaces (s := s) (i := a + 1)
              (by omega : a + 1 ≤ p) hp2
            rw [hc] at hc'
            cases hc'
            exact space_not_digit hsp'
  · rw [if_neg hsep] at h
    rw [ha, skipSpaces_idem, ← ha] at h
    subst h
    refine ⟨hpid, by omega, ?_, ?_⟩
    · apply all_space_sepSpaces
      apply slice_all_of
      intro p c hp1 hp2 hc
      obtain ⟨c', hc', hsp'⟩ := skipSpaces_spaces hp1 (by rw [← ha]; omega)
      rw [hc] at hc'
      cases hc'
      exact hsp'
    · intro p c hp1 hp2 hc
      by_cases hc1 : p < i + 3
      · exact pidLabelAt_not_digit hpid p c hp1 (by omega) hc
      · obtain ⟨c', hc', hsp'⟩ := skipSpaces_spaces (by omega : i + 3 ≤ p)
          (by rw [← ha]; omega)
        rw [hc] at hc'
        cases hc'
        exact space_not_digit hsp'

end AzaQueries

namespace AzaQueries

theorem labelEnd_complete {s : List Char} {j d : Nat} {c0 : Char}
    (hpid : pidLabelAt s j = true) (hjd : j + 3 ≤ d)
    (hss : sepSpacesOnly (sliceCh s (j + 3) d) = true)
    (hd : s.get? d = some c0) (hdig : c0.isDigit = true) :
    labelEnd s j = some d := by
  have hdlen : d < s.length := (List.get?_eq_some.mp hd).1
  have hslen : (sliceCh s (j + 3) d).length = d - (j + 3) := slice_length (by omega) hjd
  have hstop : ∀ c, s.get? d = some c → jsIsSpace c = false := by
    intro c hc
    rw [hd] at hc
    cases hc
    exact digit_not_space hdig
  unfold labelEnd
  rw [if_pos hpid]
  show some (skipSpaces s (if sepAt s (skipSpaces s (j + 3)) = true
    then skipSpaces s (j + 3) + 1 else skipSpaces s (j + 3))) = some d
  rcases sepSpaces_decomp hss with hall | ⟨w1, csep, w2, heqw, hw1, hw2, hcsep⟩
  · have hspaces : ∀ p, j + 3 ≤ p → p < d → ∃ c, s.get? p = some c ∧ jsIsSpace c = true := by
      intro p hp1 hp2
      have hn : p - (j + 3) < d - (j + 3) := by omega
      have hg := slice_get? (s := s) (a := j + 3) (b := d) hn
      rw [show j + 3 + (p - (j + 3)) = p from by omega] at hg
      cases hx : (sliceCh s (j + 3) d).get? (p - (j + 3)) with
      | none =>
        exfalso
        have := List.get?_eq_none.mp hx
        omega
      | some x =>
        refine ⟨x, by rw [← hg, hx], ?_⟩
        exact List.all_eq_true.mp hall x (List.get?_mem hx)
    have haeq : skipSpaces s (j + 3) = d := skipSpaces_eq (by omega) hspaces hstop
    rw [haeq, sepAt_false_of_digit hd hdig]
    simp only [if_neg (by simp : ¬ (false = true))]
    rw [skipSpaces_eq (le_refl d) (fun p hp1 hp2 => by omega) hstop]
  · set m := j + 3 + w1.length with hm
    have hlens : w1.length + 1 + w2.length = d - (j + 3) := by
      rw [← hslen, heqw]
      simp [List.length_append]
      omega
    have hmd : m < d := by omega
    have hcm : s.get? m = some csep := by
      have hn : w1.length < d - (j + 3) := by omega
      have hg := slice_get? (s := s) (a := j + 3) (b := d) hn
      rw [heqw] at hg
      rw [List.get?_append_right (le_refl _)] at hg
      simp only [Nat.sub_self, List.get?] at hg
      rw [← hm] at hg
      exact hg.symm
    have hsp1 : ∀ p, j + 3 ≤ p → p < m → ∃ c, s.get? p = some c ∧ jsIsSpace c = true := by
      intro p hp1 hp2
      have hn : p - (j + 3) < d - (j + 3) := by omega
      have hg := slice_get? (s := s) (a := j + 3) (b := d) hn
      rw [show j + 3 + (p - (j + 3)) = p from by omega] at hg
      rw [heqw, List.get?_append (by omega : p - (j + 3) < w1.length)] at hg
      cases hx : w1.get? (p - (j + 3)) with
      | none =>
        exfalso
        have := List.get?_eq_none.mp hx
        omega
      | some x =>
        rw [hx] at hg
        exact ⟨x, hg.symm, List.all_eq_true.mp hw1 x (List.get?_mem hx)⟩
    have hstopm : ∀ c, s.get? m = some c → jsIsSpace c = false := by
      intro c hc
      rw [hcm] at hc
      cases hc
      exact sep_not_space hcsep
    have haeq : skipSpaces s (j + 3) = m := skipSpaces_eq (by omega) hsp1 hstopm
    rw [haeq]
    rw [show sepAt s m = true from by
      unfold sepAt
      rw [show charAt s m = s.get? m from rfl, hcm]
      rcases hcsep with rfl | rfl <;> simp]
    simp only [if_pos rfl, if_true]
    have hsp2 : ∀ p, m + 1 ≤ p → p < d → ∃ c, s.get? p = some c ∧ jsIsSpace c = true := by
      intro p hp1 hp2
      have hn : p - (j + 3) < d - (j + 3) := by omega
      have hg := slice_get? (s := s) (a := j + 3) (b := d) hn
      rw [show j + 3 + (p - (j + 3)) = p from by omega] at hg
      rw [heqw, List.get?_append_right (by omega : w1.length ≤ p - (j + 3))] at hg
      have hx2 : (csep :: w2).get? (p - (j + 3) - w1.length) =
          w2.get? (p - (j + 3) - w1.length - 1) := by
        rw [show p - (j + 3) - w1.length = (p - (j + 3) - w1.length - 1) + 1 from by omega]
        rfl
      rw [hx2] at hg
      cases hx : w2.get? (p - (j + 3) - w1.length - 1) with
      | none =>
        exfalso
        have := List.get?_eq_none.mp hx
        omega
      | some x =>
        rw [hx] at hg
        exact ⟨x, hg.symm, List.all_eq_true.mp hw2 x (List.get?_mem hx)⟩
    rw [skipSpaces_eq (by omega) hsp2 hstop]

end AzaQueries

namespace AzaQueries

theorem validRunAt_true_of {s : List Char} {d : Nat} (h6 : sixDigitsAt s d = true)
    (hb6 : boundaryAt s (d + 6) = true)
    (hor : boundaryAt s d = true ∨ pidLabelBefore s d = true) :
    validRunAt s d = true := by
  unfold validRunAt
  rcases hor with h | h <;> simp [h6, hb6, h]

theorem validRunAt_false_of_nosix {s : List Char} {p : Nat}
    (h : sixDigitsAt s p = false) : validRunAt s p = false := by
  simp [validRunAt, h]

theorem validRunAt_false_at {s : List Char} {p : Nat}
    (h : ∀ c, s.get? p = some c → c.isDigit = false) : validRunAt s p = false := by
  apply validRunAt_false_of_nosix
  cases hx : s.get? p with
  | none => exact sixDigitsAt_false_none hx
  | some c => exact sixDigitsAt_false_head hx (h c hx)

theorem pidLabelBefore_intro {s : List Char} {d j : Nat} (hj : j + 3 ≤ d)
    (hbj : boundaryAt s j = true) (hpid : pidLabelAt s j = true)
    (hss : sepSpacesOnly (sliceCh s (j + 3) d) = true) :
    pidLabelBefore s d = true := by
  unfold pidLabelBefore
  rw [List.any_eq_true]
  exact ⟨j, List.mem_range.mpr (by omega), by
    simp only [Bool.and_eq_true, decide_eq_true_eq]
    exact ⟨⟨⟨hj, hbj⟩, hpid⟩, hss⟩⟩

theorem pidLabelBefore_elim {s : List Char} {d : Nat} (h : pidLabelBefore s d = true) :
    ∃ j, j + 3 ≤ d ∧ boundaryAt s j = true ∧ pidLabelAt s j = true ∧
      sepSpacesOnly (sliceCh s (j + 3) d) = true := by
  unfold pidLabelBefore at h
  rw [List.any_eq_true] at h
  obtain ⟨j, hjmem, hj⟩ := h
  simp only [Bool.and_eq_true, decide_eq_true_eq] at hj
  exact ⟨j, hj.1.1.1, hj.1.1.2, hj.1.2, hj.2⟩

theorem matchAt_sound {s : List Char} {i d : Nat} (h : matchAt s i = some d) :
    validRunAt s d = true ∧ i ≤ d ∧ d + 6 ≤ s.length ∧
    ∀ p, i ≤ p → p < d + 6 → p ≠ d → validRunAt s p = false := by
  unfold matchAt at h
  by_cases hb : boundaryAt s i = true
  swap
  · rw [if_neg hb] at h
    exact absurd h (by simp)
  rw [if_pos hb] at h
  have hfb : ∀ (hfbeq : (if sixDigitsAt s i && boundaryAt s (i + 6) then some i
      else (none : Option Nat)) = some d),
      validRunAt s d = true ∧ i ≤ d ∧ d + 6 ≤ s.length ∧
      ∀ p, i ≤ p → p < d + 6 → p ≠ d → validRunAt s p = false := by
    intro hfbeq
    by_cases hg : (sixDigitsAt s i && boundaryAt s (i + 6)) = true
    swap
    · rw [if_neg hg] at hfbeq
      exact absurd hfbeq (by simp)
    rw [if_pos hg] at hfbeq
    simp only [Option.some.injEq] at hfbeq
    subst hfbeq
    simp only [Bool.and_eq_true] at hg
    refine ⟨validRunAt_true_of hg.1 hg.2 (Or.inl hb), le_refl _,
      sixDigitsAt_length hg.1, ?_⟩
    intro p hp1 hp2 hp3
    exact validRunAt_false_of_nosix
      (sixDigitsAt_false_inside hg.1 hg.2 (by omega) (by omega))
  cases hle : labelEnd s i with
  | none =>
    rw [hle] at h
    exact hfb h
  | some k =>
    rw [hle] at h
    replace h : (if (sixDigitsAt s k && boundaryAt s (k + 6)) = true then some k
        else (if (sixDigitsAt s i && boundaryAt s (i + 6)) = true then some i
          else (none : Option Nat))) = some d := h
    by_cases hg : (sixDigitsAt s k && boundaryAt s (k + 6)) = true
    swap
    · rw [if_neg hg] at h
      exact hfb h
    rw [if_pos hg] at h
    simp only [Option.some.injEq] at h
    subst h
    simp only [Bool.and_eq_true] at hg
    obtain ⟨hpid, hik, hss, hnod⟩ := labelEnd_sound hle
    refine ⟨validRunAt_true_of hg.1 hg.2
      (Or.inr (pidLabelBefore_intro hik hb hpid hss)), by omega,
      sixDigitsAt_length hg.1, ?_⟩
    intro p hp1 hp2 hp3
    by_cases hpk : p < k
    · exact validRunAt_false_at (fun c hc => hnod p c hp1 hpk hc)
    · exact validRunAt_false_of_nosix
        (sixDigitsAt_false_inside hg.1 hg.2 (by omega) (by omega))


theorem pidLabelAt_false_of_digit {s : List Char} {j : Nat} {c : Char}
    (hc : s.get? j = some c) (hd : c.isDigit = true) : pidLabelAt s j = false := by
  cases hp : pidLabelAt s j with
  | false => rfl
  | true =>
    exfalso
    have h1 : charCIAt s j 'p' 'P' = true := by
      simp only [pidLabelAt, Bool.and_eq_true] at hp
      exact hp.1.1
    obtain ⟨x, hx, hor⟩ := charCIAt_some h1
    rw [hc] at hx
    cases hx
    rw [pid_char_not_digit hor] at hd
    exact absurd hd (by decide)

theorem matchAt_bare {s : List Char} {d : Nat} (hbd : boundaryAt s d = true)
    (h6 : sixDigitsAt s d = true) (hb6 : boundaryAt s (d + 6) = true) :
    matchAt s d = some d := by
  obtain ⟨c0, hc0, hdig⟩ := sixDigitsAt_digit h6 d (le_refl _) (by omega)
  have hlab : labelEnd s d = none := by
    unfold labelEnd
    rw [pidLabelAt_false_of_digit hc0 hdig]
    simp
  unfold matchAt
  rw [if_pos hbd, hlab]
  simp [h6, hb6]

theorem matchAt_label {s : List Char} {j d : Nat} (hbj : boundaryAt s j = true)
    (hpid : pidLabelAt s j = true) (hjd : j + 3 ≤ d)
    (hss : sepSpacesOnly (sliceCh s (j + 3) d) = true)
    (h6 : sixDigitsAt s d = true) (hb6 : boundaryAt s (d + 6) = true) :
    matchAt s j = some d := by
  obtain ⟨c0, hc0, hdig⟩ := sixDigitsAt_digit h6 d (le_refl _) (by omega)
  have hlab : labelEnd s j = some d := labelEnd_complete hpid hjd hss hc0 hdig
  unfold matchAt
  rw [if_pos hbj, hlab]
  simp [h6, hb6]

theorem sepSpaces_char {w : List Char} (h : sepSpacesOnly w = true) {c : Char}
    (hc : c ∈ w) : jsIsSpace c = true ∨ c = ':' ∨ c = '-' := by
  simp only [sepSpacesOnly, Bool.and_eq_true, List.all_eq_true] at h
  have hx := h.1 c hc
  simp only [Bool.or_eq_true, decide_eq_true_eq] at hx
  tauto

theorem sepSpaces_not_digit {w : List Char} (h : sepSpacesOnly w = true) {c : Char}
    (hc : c ∈ w) (hd : c.isDigit = true) : False := by
  rcases sepSpaces_char h hc with hx | hx | hx
  · rw [digit_not_space hd] at hx
    exact absurd hx (by decide)
  · exact absurd hx (digit_not_sep hd).1
  · exact absurd hx (digit_not_sep hd).2

theorem hasWit_zero (s : List Char) : HasWit s 0 := by
  intro d hv _
  simp only [validRunAt, Bool.and_eq_true, Bool.or_eq_true] at hv
  rcases hv.2 with hb | hlb
  · exact Or.inl hb
  · obtain ⟨j, h1, h2, h3, h4⟩ := pidLabelBefore_elim hlb
    exact Or.inr ⟨j, Nat.zero_le _, h1, h2, h3, h4⟩

theorem hasWit_step {s : List Char} {i : Nat} (hw : HasWit s i)
    (hm : matchAt s i = none) : HasWit s (i + 1) := by
  intro d hv hd
  rcases hw d hv (by omega) with hb | ⟨j, hji, hj3, hbj, hpid, hss⟩
  · exact Or.inl hb
  · by_cases hji1 : i + 1 ≤ j
    · exact Or.inr ⟨j, hji1, hj3, hbj, hpid, hss⟩
    · exfalso
      have hj : j = i := by omega
      subst hj
      simp only [validRunAt, Bool.and_eq_true] at hv
      have hlm := matchAt_label hbj hpid hj3 hss hv.1.1 hv.1.2
      rw [hm] at hlm
      exact absurd hlm (by simp)

theorem validRun_false_of_none {s : List Char} {i : Nat} (hw : HasWit s i)
    (hm : matchAt s i = none) : validRunAt s i = false := by
  cases hv : validRunAt s i with
  | false => rfl
  | true =>
    exfalso
    rcases hw i hv (le_refl _) with hb | ⟨j, hji, hj3, _⟩
    · simp only [validRunAt, Bool.and_eq_true] at hv
      have hbm := matchAt_bare hb hv.1.1 hv.1.2
      rw [hm] at hbm
      exact absurd hbm (by simp)
    · omega

theorem hasWit_after {s : List Char} {d : Nat} (h6 : sixDigitsAt s d = true) :
    HasWit s (d + 6) := by
  intro e hv he
  simp only [validRunAt, Bool.and_eq_true, Bool.or_eq_true] at hv
  rcases hv.2 with hb | hlb
  · exact Or.inl hb
  · obtain ⟨j, hj3, hbj, hpid, hss⟩ := pidLabelBefore_elim hlb
    refine Or.inr ⟨j, ?_, hj3, hbj, hpid, hss⟩
    by_contra hcon
    push_neg at hcon
    by_cases hjd : j + 3 ≤ d
    · obtain ⟨c0, hc0, hdig⟩ := sixDigitsAt_digit h6 d (le_refl _) (by omega)
      have hn : d - (j + 3) < e - (j + 3) := by omega
      have hg := slice_get? (s := s) (a := j + 3) (b := e) hn
      rw [show j + 3 + (d - (j + 3)) = d from by omega, hc0] at hg
      exact sepSpaces_not_digit hss (List.get?_mem hg) hdig
    · obtain ⟨c0, hc0, hdig⟩ := sixDigitsAt_digit h6 (max j d) (by omega) (by omega)
      exact absurd (pidLabelAt_not_digit hpid (max j d) c0 (by omega) (by omega) hc0)
        (by simp [hdig])

theorem scanPids_eq (s : List Char) (fuel : Nat) :
    ∀ i, s.length + 1 ≤ fuel + i → HasWit s i →
    scanPids s fuel i = (List.range' i (s.length - i)).filterMap
      (fun d => if validRunAt s d then some ((s.drop d).take 6) else none) := by
  induction fuel with
  | zero =>
    intro i hf _
    rw [show s.length - i = 0 from by omega]
    rfl
  | succ fuel ih =>
    intro i hf hw
    cases hm : matchAt s i with
    | none =>
      by_cases hil : i < s.length
      · have hstep : scanPids s (fuel + 1) i = scanPids s fuel (i + 1) := by
          simp only [scanPids, hm]
          rw [if_pos hil]
        rw [hstep, ih (i + 1) (by omega) (hasWit_step hw hm)]
        rw [show s.length - i = (s.length - (i + 1)) + 1 from by omega,
          List.range'_succ]
        rw [List.filterMap_cons_none (by simp [validRun_false_of_none hw hm])]
      · have hstep : scanPids s (fuel + 1) i = [] := by
          simp only [scanPids, hm]
          rw [if_neg hil]
        rw [hstep, show s.length - i = 0 from by omega]
        rfl
    | some d =>
      obtain ⟨hv, hid, hlen6, hinv⟩ := matchAt_sound hm
      have hv' := hv
      simp only [validRunAt, Bool.and_eq_true] at hv'
      obtain ⟨⟨h6, hb6⟩, _⟩ := hv'
      have hstep : scanPids s (fuel + 1) i =
          (s.drop d).take 6 :: scanPids s fuel (d + 6) := by
        simp only [scanPids, hm]
      rw [hstep, ih (d + 6) (by omega) (hasWit_after h6)]
      have hsplit : List.range' i (s.length - i) =
          (List.range' i (d - i) ++ List.range' d 6) ++
            List.range' (d + 6) (s.length - (d + 6)) := by
        rw [show List.range' d 6 = List.range' (i + (d - i)) 6 from by rw [show i + (d - i) = d from by omega],
          List.range'_append_1,
          show List.range' (d + 6) (s.length - (d + 6)) = List.range' (i + (6 + (d - i))) (s.length - (d + 6)) from by rw [show i + (6 + (d - i)) = d + 6 from by omega],
          List.range'_append_1]
        rw [show s.length - (d + 6) + (6 + (d - i)) = s.length - i from by omega]
      rw [hsplit, List.filterMap_append, List.filterMap_append]
      have hnil1 : (List.range' i (d - i)).filterMap
          (fun p => if validRunAt s p then some ((s.drop p).take 6) else none) = [] := by
        rw [List.filterMap_eq_nil_iff]
        intro p hp
        rw [List.mem_range'_1] at hp
        simp [hinv p (by omega) (by omega) (by omega)]
      have hone : (List.range' d 6).filterMap
          (fun p => if validRunAt s p then some ((s.drop p).take 6) else none) =
          [(s.drop d).take 6] := by
        have hfd : (fun p => if validRunAt s p = true then
            some (List.take 6 (List.drop p s)) else none) d =
            some (List.take 6 (List.drop d s)) := by simp [hv]
        have hpeel : List.range' d 6 = d :: List.range' (d + 1) 5 :=
          List.range'_succ d 5 1
        rw [hpeel, @List.filterMap_cons_some _ _
          (fun p => if validRunAt s p = true then
            some (List.take 6 (List.drop p s)) else none)
          d (List.range' (d + 1) 5) (List.take 6 (List.drop d s)) hfd]
        rw [List.filterMap_eq_nil_iff.mpr (fun p hp => by
          rw [List.mem_range'_1] at hp
          simp [hinv p (by omega) (by omega) (by omega)])]
      rw [hnil1, hone]
      rfl

theorem extractPids_eq_spec (text : String) : extractPids text = pidRunsSpec text := by
  unfold extractPids pidRunsSpec
  rw [scanPids_eq text.data (text.data.length + 1) 0 (by omega) (hasWit_zero _),
    List.range_eq_range']
  rw [show text.data.length - 0 = text.data.length from by omega]


theorem all_digits_wordAt {s : List Char} (hdig : s.all Char.isDigit = true)
    {p : Nat} (hp : p < s.length) : wordAt s p = true := by
  cases hx : s.get? p with
  | none => exact absurd (List.get?_eq_none.mp hx) (by omega)
  | some c =>
    have hc : c.isDigit = true := List.all_eq_true.mp hdig c (List.get?_mem hx)
    unfold wordAt
    rw [show charAt s p = s.get? p from rfl, hx]
    exact digit_isWordChar hc

theorem extractPids_pure_number {s : String} (hlen : 7 ≤ s.data.length)
    (hdig : s.data.all Char.isDigit = true) : extractPids s = [] := by
  rw [extractPids_eq_spec]
  unfold pidRunsSpec
  have hall : (List.range s.data.length).filterMap
      (fun d => if validRunAt s.data d then some ((s.data.drop d).take 6) else none) = [] := by
    rw [List.filterMap_eq_nil_iff]
    intro d hd
    rw [List.mem_range] at hd
    suffices hvf : validRunAt s.data d = false by simp [hvf]
    cases hsix : sixDigitsAt s.data d with
    | false => exact validRunAt_false_of_nosix hsix
    | true =>
      have h6 : d + 6 ≤ s.data.length := sixDigitsAt_length hsix
      by_cases hb : d + 6 < s.data.length
      · have hw1 : wordAt s.data (d + 5) = true := all_digits_wordAt hdig (by omega)
        have hw2 : wordAt s.data (d + 6) = true := all_digits_wordAt hdig (by omega)
        have hbnd : boundaryAt s.data (d + 6) = false := by
          unfold boundaryAt
          rw [if_neg (by omega), show d + 6 - 1 = d + 5 from by omega, hw1, hw2]
          rfl
        simp [validRunAt, hbnd]
      · have hd1 : 1 ≤ d := by omega
        have hw1 : wordAt s.data (d - 1) = true := all_digits_wordAt hdig (by omega)
        have hw2 : wordAt s.data d = true := all_digits_wordAt hdig (by omega)
        have hbd : boundaryAt s.data d = false := by
          unfold boundaryAt
          rw [if_neg (by omega), hw1, hw2]
          rfl
        have hpl : pidLabelBefore s.data d = false := by
          cases hp : pidLabelBefore s.data d with
          | false => rfl
          | true =>
            exfalso
            obtain ⟨j, hj3, _, hpid, _⟩ := pidLabelBefore_elim hp
            have h1 : charCIAt s.data j 'p' 'P' = true := by
              simp only [pidLabelAt, Bool.and_eq_true] at hpid
              exact hpid.1.1
            obtain ⟨x, hx, hor⟩ := charCIAt_some h1
            have hc : x.isDigit = true := List.all_eq_true.mp hdig x (List.get?_mem hx)
            rw [pid_char_not_digit hor] at hc
            exact absurd hc (by decide)
        simp [validRunAt, hbd, hpl]
  rw [hall]
  rfl


/-- **C4.** PID extraction returns exactly the distinct 6-digit digit runs
bounded by word boundaries on both sides (optionally preceded by a
case-insensitive `pid` label with optional colon/dash separator), in
first-seen order, as captured by the spec-side `pidRunsSpec`; in particular,
for any body consisting of a numeral of 7 or more digits, no 6-digit
substring of it is ever returned as a PID. -/
theorem extractPids_spec :
    (∀ text : String, extractPids text = pidRunsSpec text) ∧
    (∀ s : String, 7 ≤ s.data.length → s.data.all Char.isDigit = true →
      extractPids s = []) :=
  ⟨extractPids_eq_spec, fun _ h1 h2 => extractPids_pure_number h1 h2⟩

theorem extractPids_spec_witness :
    7 ≤ ("1234567" : String).data.length ∧
    ("1234567" : String).data.all Char.isDigit = true ∧
    extractPids "1234567" = [] :=
  ⟨by decide, by decide, extractPids_spec.2 "1234567" (by decide) (by decide)⟩

end AzaQueries
